import Mathlib

/-!
Verification of the balance-reconstruction core of `FinancialViewer.py`
(`BankingHistory`).  Python `datetime.datetime` values (always at midnight in
this program) are modelled by a `Date` structure with the Gregorian calendar
rules of the `datetime` module; `float` amounts are modelled as exact rationals
and Python's `round(x, 2)` as round-half-to-even at two decimal places.
-/

/-- Calendar date, mirroring the (year, month, day) content of the
`datetime.datetime` values the program manipulates. -/
structure Date where
  y : ℕ
  m : ℕ
  d : ℕ
deriving DecidableEq, Repr

instance : Inhabited Date := ⟨⟨1, 1, 1⟩⟩

/-- Chronological strict order on dates (how `datetime` objects compare). -/
def dateLt (a b : Date) : Prop :=
  a.y < b.y ∨ (a.y = b.y ∧ (a.m < b.m ∨ (a.m = b.m ∧ a.d < b.d)))

/-- Chronological order on dates (how `datetime` objects compare). -/
def dateLe (a b : Date) : Prop :=
  a.y < b.y ∨ (a.y = b.y ∧ (a.m < b.m ∨ (a.m = b.m ∧ a.d ≤ b.d)))

instance : DecidableRel dateLt := fun a b => by
  unfold dateLt; exact inferInstance

instance : DecidableRel dateLe := fun a b => by
  unfold dateLe; exact inferInstance

instance : IsTotal Date dateLe := ⟨by
  intro a b
  obtain ⟨ay, am, ad⟩ := a
  obtain ⟨by_, bm, bd⟩ := b
  simp only [dateLe]
  omega⟩

instance : IsTrans Date dateLe := ⟨by
  intro a b c hab hbc
  obtain ⟨ay, am, ad⟩ := a
  obtain ⟨by_, bm, bd⟩ := b
  obtain ⟨cy, cm, cd⟩ := c
  simp only [dateLe] at *
  omega⟩

/-- Gregorian leap-year rule used by `datetime`. -/
def isLeap (y : ℕ) : Prop := (y % 4 = 0 ∧ y % 100 ≠ 0) ∨ y % 400 = 0

instance (y : ℕ) : Decidable (isLeap y) := by
  unfold isLeap; exact inferInstance

/-- Number of days of month `m` in year `y` (Gregorian). -/
def daysInMonth (y m : ℕ) : ℕ :=
  if m = 2 then (if isLeap y then 29 else 28)
  else if m = 4 ∨ m = 6 ∨ m = 9 ∨ m = 11 then 30 else 31

/-- Number of days in the months of year `y` strictly before month `m`. -/
def daysBeforeMonth (y m : ℕ) : ℕ :=
  ∑ k ∈ Finset.range (m - 1), daysInMonth y (k + 1)

/-- Number of leap years in `1..y`. -/
def leapsBefore (y : ℕ) : ℕ := y / 4 + y / 400 - y / 100

/-- Proleptic-Gregorian ordinal of a date, as `datetime.toordinal`:
January 1 of year 1 is day 1. -/
def toOrdinal (dt : Date) : ℕ :=
  365 * (dt.y - 1) + leapsBefore (dt.y - 1) + daysBeforeMonth dt.y dt.m + dt.d

/-- The date is a real calendar date (what `datetime` guarantees). -/
def Date.Valid (dt : Date) : Prop :=
  1 ≤ dt.y ∧ 1 ≤ dt.m ∧ dt.m ≤ 12 ∧ 1 ≤ dt.d ∧ dt.d ≤ daysInMonth dt.y dt.m

instance (dt : Date) : Decidable dt.Valid := by
  unfold Date.Valid; exact inferInstance

/-- Successor day, as `datetime + timedelta(days=1)` computes it on valid
dates. -/
def nextDay (dt : Date) : Date :=
  if dt.d < daysInMonth dt.y dt.m then ⟨dt.y, dt.m, dt.d + 1⟩
  else if dt.m < 12 then ⟨dt.y, dt.m + 1, 1⟩
  else ⟨dt.y + 1, 1, 1⟩

/-- Adding `n` days to a date. -/
def addDays (n : ℕ) (dt : Date) : Date := nextDay^[n] dt

/-- Python's `round(x, 2)` modelled on exact rationals: round `100 * q` to the
nearest integer, ties to the even integer. -/
def roundHalfEven (q : ℚ) : ℤ :=
  if q - ⌊q⌋ < 1 / 2 then ⌊q⌋
  else if 1 / 2 < q - ⌊q⌋ then ⌊q⌋ + 1
  else if 2 ∣ ⌊q⌋ then ⌊q⌋ else ⌊q⌋ + 1

/-- Rounding to two decimal places (`round(x, 2)`). -/
def round2 (q : ℚ) : ℚ := (roundHalfEven (100 * q) : ℚ) / 100

/-- A whole-cent amount: an integer number of hundredths. -/
def IsCent (q : ℚ) : Prop := ∃ k : ℤ, q = (k : ℚ) / 100

/-- Value stored for key `dt` by a Python `dict` built from the association
list `pairs` in order (a later pair with the same key overwrites an earlier
one); `0` if the key is absent.  `BankingHistory.fill_no_transact_days` only
consults it for present keys. -/
def dictLookup (pairs : List (Date × ℚ)) (dt : Date) : ℚ :=
  (pairs.foldl (fun acc p => if p.1 = dt then some p.2 else acc) none).getD 0

/-- Total of the amounts that `pairs` records on date `dt`
(`[tup[1] for tup in zipped if tup[0] == date_temp]`, summed). -/
def changeOn (pairs : List (Date × ℚ)) (dt : Date) : ℚ :=
  ((pairs.filter (fun p => decide (p.1 = dt))).map Prod.snd).sum

/-- Embedding of `BankingHistory.collapse_date_change` (src lines 240-280):
unique dates of the input sorted ascending then flipped (so the result is in
DECREASING time order, which the callers then `reverse`), each paired with the
rounded total change on that date. -/
def collapse_date_change (list_of_dates : List Date) (list_of_changes : List ℚ) :
    List Date × List ℚ :=
  let sorted_unique_dates := (List.insertionSort dateLe list_of_dates.dedup).reverse
  let zipped_date_change := list_of_dates.zip list_of_changes
  (sorted_unique_dates,
   sorted_unique_dates.map (fun dt => round2 (changeOn zipped_date_change dt)))

/-- Embedding of `BankingHistory.fill_no_transact_days` (src lines 282-325):
walk one day at a time from the first input date while not past the last input
date, keeping the recorded change for listed days and `0` for absent days.
Python raises `IndexError` on an empty date list (`list_of_dates[0]`), modelled
as `none`.  The day walk is expressed through ordinals: for the valid dates
`datetime` supplies, `addDays i first` for `i < toOrdinal last + 1 - toOrdinal
first` enumerates exactly the iterations of the source's `while current_day <=
last_day` loop. -/
def fill_no_transact_days (list_of_dates : List Date) (list_of_changes : List ℚ) :
    Option (List Date × List ℚ) :=
  match list_of_dates with
  | [] => none
  | first :: rest =>
    let last_day := (first :: rest).getLast (List.cons_ne_nil _ _)
    let all_days := (List.range (toOrdinal last_day + 1 - toOrdinal first)).map
      (fun i => addDays i first)
    let all_changes := all_days.map (fun dt =>
      if dt ∈ list_of_dates then dictLookup (list_of_dates.zip list_of_changes) dt
      else 0)
    some (all_days, all_changes)

/-- The ascending list of distinct dates of a raw transaction list:
`collapse_date_change` produces its reverse, and the callers of
`collapse_date_change` reverse that again. -/
def sortedUniqueDates (dates : List Date) : List Date :=
  List.insertionSort dateLe dates.dedup

/-- The list of consecutive days the filling loop of
`fill_no_transact_days` visits: `first`, `first + 1 day`, ..., `last`. -/
def fillDays (first last : Date) : List Date :=
  (List.range (toOrdinal last + 1 - toOrdinal first)).map (fun i => addDays i first)

/-- Total collapsed daily change of an account on a date: the rounded total
of its raw transaction amounts on that date (what `collapse_date_change` pairs
with each unique date). -/
def accountDailyChangeFun (dates : List Date) (changes : List ℚ) : Date → ℚ :=
  fun dt => round2 (changeOn (dates.zip changes) dt)

/-- The gap-filled day range of an account: every day from its earliest to its
latest transaction date. -/
def accountFillDays (dates : List Date) : List Date :=
  fillDays (sortedUniqueDates dates).headI (sortedUniqueDates dates).getLastI

/-- Running sums of a list starting from accumulator `acc`
(`numpy.cumsum` when `acc = 0`). -/
def cumulativeSums (acc : ℚ) : List ℚ → List ℚ
  | [] => []
  | c :: rest => (acc + c) :: cumulativeSums (acc + c) rest

/-- Embedding of `BankingHistory.convert_changes_to_balances` (src lines
327-353): cumulative sums of the changes, shifted by the initial balance, each
entry rounded to the cent. -/
def convert_changes_to_balances (initial_balance : ℚ) (list_of_changes : List ℚ) :
    List ℚ :=
  (cumulativeSums 0 list_of_changes).map (fun s => round2 (initial_balance + s))

/-- First day of the month of `dt`
(`datetime.datetime(day=1, month=date.month, year=date.year)`). -/
def monthStart (dt : Date) : Date := ⟨dt.y, dt.m, 1⟩

/-- Embedding of `BankingHistory.get_monthly_change_balance` (src lines
355-426).  Entries are grouped by month start; per month the changes are
summed and rounded, and the balance is the one recorded on the month's first
calendar day, falling back to the balance of the very first entry when that
day is absent (`IndexError` branch). -/
def get_monthly_change_balance (list_of_dates : List Date)
    (list_of_changes list_of_balances : List ℚ) :
    List Date × List ℚ × List ℚ :=
  let zipped_day_change_balance :=
    list_of_dates.zip (list_of_changes.zip list_of_balances)
  let zipped_month_change_balance :=
    zipped_day_change_balance.map (fun t => (monthStart t.1, t.2))
  let month_years := zipped_month_change_balance.map Prod.fst
  let sorted_unique_month_years := List.insertionSort dateLe month_years.dedup
  let monthly_account_changes := sorted_unique_month_years.map (fun my =>
    round2 (((zipped_month_change_balance.filter
      (fun t => decide (t.1 = my))).map (fun t => t.2.1)).sum))
  let monthly_account_balances := sorted_unique_month_years.map (fun my =>
    match (zipped_day_change_balance.filter (fun t => decide (t.1 = my))).head? with
    | some t => t.2.2
    | none => (zipped_day_change_balance.headI).2.2)
  (sorted_unique_month_years, monthly_account_changes, monthly_account_balances)

/-- The computed attributes of a `BankingHistory` object relevant to the daily
and monthly series (src lines 119-206). -/
structure BankingHistory where
  initial_cheq_balance : ℚ
  initial_save_balance : ℚ
  initial_bank_balance : ℚ
  cheq_days : List Date
  cheq_daily_changes : List ℚ
  cheq_daily_balances : List ℚ
  cheq_months : List Date
  cheq_monthly_changes : List ℚ
  cheq_initial_monthly_balances : List ℚ
  save_days : List Date
  save_daily_changes : List ℚ
  save_daily_balances : List ℚ
  save_months : List Date
  save_monthly_changes : List ℚ
  save_initial_monthly_balances : List ℚ
  bank_days : List Date
  bank_daily_changes : List ℚ
  bank_daily_balances : List ℚ
  bank_months : List Date
  bank_monthly_changes : List ℚ
  bank_initial_monthly_balances : List ℚ
deriving Repr

/-- Embedding of `BankingHistory.__init__` (src lines 82-206) from the parsed
per-account transaction lists onwards: collapse each account's transactions,
reverse into ascending order, gap-fill, adjust the supplied initial balances by
the first day's collapsed change, accumulate balances, combine the two filled
series into the bank series (concatenate, collapse, reverse, gap-fill,
accumulate from the sum of the adjusted initials), and aggregate each series by
month.  An unhandled Python exception (empty transaction list) is `none`. -/
def mkBankingHistory (initial_chequing initial_saving : ℚ)
    (cheq_dates : List Date) (cheq_changes : List ℚ)
    (save_dates : List Date) (save_changes : List ℚ) : Option BankingHistory :=
  let cheqCollapsed := collapse_date_change cheq_dates cheq_changes
  let saveCollapsed := collapse_date_change save_dates save_changes
  let cheq_unique_days := cheqCollapsed.1.reverse
  let cheq_daily_changes := cheqCollapsed.2.reverse
  let save_unique_days := saveCollapsed.1.reverse
  let save_daily_changes := saveCollapsed.2.reverse
  match fill_no_transact_days cheq_unique_days cheq_daily_changes,
        fill_no_transact_days save_unique_days save_daily_changes,
        cheq_daily_changes, save_daily_changes with
  | some (cheq_fill_days, cheq_fill_daily_changes),
    some (save_fill_days, save_fill_daily_changes),
    cheq_first_change :: _, save_first_change :: _ =>
    let initial_cheq_balance := initial_chequing - cheq_first_change
    let initial_save_balance := initial_saving - save_first_change
    let cheq_daily_balances :=
      convert_changes_to_balances initial_cheq_balance cheq_fill_daily_changes
    let save_daily_balances :=
      convert_changes_to_balances initial_save_balance save_fill_daily_changes
    let bank_days_cat := cheq_fill_days ++ save_fill_days
    let bank_changes_cat := cheq_fill_daily_changes ++ save_fill_daily_changes
    let bankCollapsed := collapse_date_change bank_days_cat bank_changes_cat
    let bank_unique_days := bankCollapsed.1.reverse
    let bank_daily_changes := bankCollapsed.2.reverse
    match fill_no_transact_days bank_unique_days bank_daily_changes with
    | some (bank_fill_days, bank_fill_daily_changes) =>
      let initial_bank_balance := initial_cheq_balance + initial_save_balance
      let bank_daily_balances :=
        convert_changes_to_balances initial_bank_balance bank_fill_daily_changes
      let cheqMonthly := get_monthly_change_balance cheq_fill_days
        cheq_fill_daily_changes cheq_daily_balances
      let saveMonthly := get_monthly_change_balance save_fill_days
        save_fill_daily_changes save_daily_balances
      let bankMonthly := get_monthly_change_balance bank_fill_days
        bank_fill_daily_changes bank_daily_balances
      some ⟨initial_cheq_balance, initial_save_balance, initial_bank_balance,
        cheq_fill_days, cheq_fill_daily_changes, cheq_daily_balances,
        cheqMonthly.1, cheqMonthly.2.1, cheqMonthly.2.2,
        save_fill_days, save_fill_daily_changes, save_daily_balances,
        saveMonthly.1, saveMonthly.2.1, saveMonthly.2.2,
        bank_fill_days, bank_fill_daily_changes, bank_daily_balances,
        bankMonthly.1, bankMonthly.2.1, bankMonthly.2.2⟩
    | none => none
  | _, _, _, _ => none


/-- Closed form of the series `BankingHistory.__init__` computes (proved equal
to `mkBankingHistory` below): per account the filled day range carries the
collapsed daily change function, balances accumulate from the adjusted initial
balance, and the bank series is the same construction over the concatenation
of the two filled series. -/
def bankingHistorySpec (initial_chequing initial_saving : ℚ)
    (cheq_dates : List Date) (cheq_changes : List ℚ)
    (save_dates : List Date) (save_changes : List ℚ) : BankingHistory :=
  let gC := accountDailyChangeFun cheq_dates cheq_changes
  let gS := accountDailyChangeFun save_dates save_changes
  let fdC := accountFillDays cheq_dates
  let fdS := accountFillDays save_dates
  let icb := initial_chequing - gC (sortedUniqueDates cheq_dates).headI
  let isb := initial_saving - gS (sortedUniqueDates save_dates).headI
  let fcC := fdC.map gC
  let fcS := fdS.map gS
  let balC := convert_changes_to_balances icb fcC
  let balS := convert_changes_to_balances isb fcS
  let catD := fdC ++ fdS
  let catC := fcC ++ fcS
  let gB := accountDailyChangeFun catD catC
  let fdB := accountFillDays catD
  let fcB := fdB.map gB
  let ibb := icb + isb
  let balB := convert_changes_to_balances ibb fcB
  let mC := get_monthly_change_balance fdC fcC balC
  let mS := get_monthly_change_balance fdS fcS balS
  let mB := get_monthly_change_balance fdB fcB balB
  ⟨icb, isb, ibb, fdC, fcC, balC, mC.1, mC.2.1, mC.2.2,
   fdS, fcS, balS, mS.1, mS.2.1, mS.2.2,
   fdB, fcB, balB, mB.1, mB.2.1, mB.2.2⟩

/-- Value a (date, value) series holds at `dt`: the sum of the values its
entries record on that date (the unique value when the dates are distinct,
`0` when the date is absent). -/
def seriesAt (days : List Date) (vals : List ℚ) (dt : Date) : ℚ :=
  changeOn (days.zip vals) dt

theorem dateLe_refl (a : Date) : dateLe a a := by
  simp [dateLe]

theorem dateLe_of_dateLt {a b : Date} (h : dateLt a b) : dateLe a b := by
  obtain ⟨ay, am, ad⟩ := a
  obtain ⟨cy, cm, cd⟩ := b
  simp only [dateLt, dateLe] at *
  omega

theorem dateLt_trichotomy (a b : Date) : dateLt a b ∨ a = b ∨ dateLt b a := by
  obtain ⟨ay, am, ad⟩ := a
  obtain ⟨cy, cm, cd⟩ := b
  simp only [dateLt, Date.mk.injEq]
  omega

theorem dateLe_iff (a b : Date) : dateLe a b ↔ dateLt a b ∨ a = b := by
  obtain ⟨ay, am, ad⟩ := a
  obtain ⟨cy, cm, cd⟩ := b
  simp only [dateLt, dateLe, Date.mk.injEq]
  omega

theorem dateLt_irrefl (a : Date) : ¬ dateLt a a := by
  obtain ⟨ay, am, ad⟩ := a
  simp only [dateLt]
  omega

theorem dateLt_asymm {a b : Date} (h : dateLt a b) : ¬ dateLt b a := by
  obtain ⟨ay, am, ad⟩ := a
  obtain ⟨cy, cm, cd⟩ := b
  simp only [dateLt] at *
  omega

theorem daysInMonth_pos (y m : ℕ) : 1 ≤ daysInMonth y m := by
  unfold daysInMonth
  split_ifs <;> norm_num

theorem daysBeforeMonth_succ (y m : ℕ) (hm : 1 ≤ m) :
    daysBeforeMonth y (m + 1) = daysBeforeMonth y m + daysInMonth y m := by
  unfold daysBeforeMonth
  have h1 : m + 1 - 1 = (m - 1) + 1 := by omega
  have h2 : m - 1 + 1 = m := by omega
  rw [h1, Finset.sum_range_succ, h2]

theorem daysBeforeMonth_mono (y : ℕ) {m1 m2 : ℕ} (h : m1 ≤ m2) :
    daysBeforeMonth y m1 ≤ daysBeforeMonth y m2 :=
  Finset.sum_le_sum_of_subset (Finset.range_subset.mpr (by omega))

theorem daysBeforeMonth_year (y : ℕ) :
    daysBeforeMonth y 13 = 365 + (if isLeap y then 1 else 0) := by
  by_cases h : isLeap y <;>
    simp [daysBeforeMonth, Finset.sum_range_succ, daysInMonth, h]

theorem leapsBefore_succ (y : ℕ) :
    leapsBefore (y + 1) = leapsBefore y + (if isLeap (y + 1) then 1 else 0) := by
  have h4 := Nat.succ_div y 4
  have h100 := Nat.succ_div y 100
  have h400 := Nat.succ_div y 400
  have hle : y / 100 ≤ y / 4 := Nat.div_le_div_left (by norm_num) (by norm_num)
  have hle2 : (y + 1) / 100 ≤ (y + 1) / 4 :=
    Nat.div_le_div_left (by norm_num) (by norm_num)
  unfold leapsBefore isLeap
  split_ifs at * <;> omega

theorem leapsBefore_mono : Monotone leapsBefore := by
  apply monotone_nat_of_le_succ
  intro n
  rw [leapsBefore_succ]
  split_ifs <;> omega

theorem dayPart_le {dt : Date} (h : dt.Valid) :
    daysBeforeMonth dt.y dt.m + dt.d ≤ 365 + (if isLeap dt.y then 1 else 0) := by
  obtain ⟨hy, hm1, hm2, hd1, hd2⟩ := h
  have h1 : daysBeforeMonth dt.y dt.m + dt.d ≤ daysBeforeMonth dt.y (dt.m + 1) := by
    rw [daysBeforeMonth_succ dt.y dt.m hm1]
    omega
  have h2 : daysBeforeMonth dt.y (dt.m + 1) ≤ daysBeforeMonth dt.y 13 :=
    daysBeforeMonth_mono dt.y (by omega)
  rw [daysBeforeMonth_year] at h2
  omega

theorem valid_nextDay {dt : Date} (h : dt.Valid) : (nextDay dt).Valid := by
  obtain ⟨hy, hm1, hm2, hd1, hd2⟩ := h
  unfold nextDay
  split_ifs with hd hm
  · exact ⟨hy, hm1, hm2, by show 1 ≤ dt.d + 1; omega,
      by show dt.d + 1 ≤ daysInMonth dt.y dt.m; omega⟩
  · exact ⟨hy, by show 1 ≤ dt.m + 1; omega, by show dt.m + 1 ≤ 12; omega,
      le_refl 1, daysInMonth_pos _ _⟩
  · exact ⟨by show 1 ≤ dt.y + 1; omega, le_refl 1, by norm_num,
      le_refl 1, daysInMonth_pos _ _⟩

theorem toOrdinal_nextDay {dt : Date} (h : dt.Valid) :
    toOrdinal (nextDay dt) = toOrdinal dt + 1 := by
  obtain ⟨hy, hm1, hm2, hd1, hd2⟩ := h
  unfold nextDay
  split_ifs with hd hm
  · simp only [toOrdinal]
    omega
  · simp only [toOrdinal]
    have hrec := daysBeforeMonth_succ dt.y dt.m hm1
    omega
  · simp only [toOrdinal]
    rw [Nat.add_sub_cancel]
    have hm12 : dt.m = 12 := by omega
    have hy13 := daysBeforeMonth_year dt.y
    have hrec := daysBeforeMonth_succ dt.y 12 (by norm_num)
    norm_num at hrec
    have hdim : daysInMonth dt.y 12 = 31 := by norm_num [daysInMonth, isLeap]
    have hsucc : leapsBefore dt.y
        = leapsBefore (dt.y - 1) + (if isLeap dt.y then 1 else 0) := by
      have h1 := leapsBefore_succ (dt.y - 1)
      have h2 : dt.y - 1 + 1 = dt.y := by omega
      rw [h2] at h1
      exact h1
    have h0 : daysBeforeMonth (dt.y + 1) 1 = 0 := by
      simp [daysBeforeMonth]
    rw [hm12] at hd hd2 ⊢
    rw [hdim] at hd hd2 hrec
    rw [h0]
    by_cases hl : isLeap dt.y
    · rw [if_pos hl] at hy13 hsucc
      omega
    · rw [if_neg hl] at hy13 hsucc
      omega

theorem addDays_zero (dt : Date) : addDays 0 dt = dt := rfl

theorem addDays_succ (n : ℕ) (dt : Date) :
    addDays (n + 1) dt = nextDay (addDays n dt) :=
  Function.iterate_succ_apply' nextDay n dt

theorem valid_addDays {dt : Date} (h : dt.Valid) (n : ℕ) : (addDays n dt).Valid := by
  induction n with
  | zero => exact h
  | succ k ih => rw [addDays_succ]; exact valid_nextDay ih

theorem toOrdinal_addDays {dt : Date} (h : dt.Valid) (n : ℕ) :
    toOrdinal (addDays n dt) = toOrdinal dt + n := by
  induction n with
  | zero => rfl
  | succ k ih =>
    rw [addDays_succ, toOrdinal_nextDay (valid_addDays h k), ih]
    omega

theorem toOrdinal_lt_of_dateLt {a b : Date} (ha : a.Valid) (hb : b.Valid)
    (h : dateLt a b) : toOrdinal a < toOrdinal b := by
  have hpa := dayPart_le ha
  have hpb := dayPart_le hb
  obtain ⟨hya, hma1, hma2, hda1, hda2⟩ := ha
  obtain ⟨hyb, hmb1, hmb2, hdb1, hdb2⟩ := hb
  rcases h with hy | ⟨hy, hm | ⟨hm, hd⟩⟩
  · -- strictly earlier year
    have hsucc : leapsBefore a.y
        = leapsBefore (a.y - 1) + (if isLeap a.y then 1 else 0) := by
      have h1 := leapsBefore_succ (a.y - 1)
      have h2 : a.y - 1 + 1 = a.y := by omega
      rw [h2] at h1
      exact h1
    have hmono : leapsBefore a.y ≤ leapsBefore (b.y - 1) :=
      leapsBefore_mono (by omega)
    have hbpos : 1 ≤ daysBeforeMonth b.y b.m + b.d := by omega
    unfold toOrdinal
    have hy365 : 365 * (a.y - 1) + 365 ≤ 365 * (b.y - 1) := by
      have : a.y ≤ b.y - 1 := by omega
      calc 365 * (a.y - 1) + 365 = 365 * a.y := by omega
        _ ≤ 365 * (b.y - 1) := Nat.mul_le_mul_left 365 this
    split_ifs at hpa hpb hsucc <;> omega
  · -- same year, strictly earlier month
    have hstep : daysBeforeMonth a.y (a.m + 1)
        = daysBeforeMonth a.y a.m + daysInMonth a.y a.m :=
      daysBeforeMonth_succ a.y a.m hma1
    have hmono : daysBeforeMonth a.y (a.m + 1) ≤ daysBeforeMonth a.y b.m :=
      daysBeforeMonth_mono a.y (by omega)
    unfold toOrdinal
    rw [hy]
    rw [hy] at hstep hmono hda2
    omega
  · -- same year and month, earlier day
    unfold toOrdinal
    rw [hy, hm]
    omega

theorem toOrdinal_inj {a b : Date} (ha : a.Valid) (hb : b.Valid)
    (h : toOrdinal a = toOrdinal b) : a = b := by
  rcases dateLt_trichotomy a b with hlt | heq | hgt
  · exact absurd h (Nat.ne_of_lt (toOrdinal_lt_of_dateLt ha hb hlt))
  · exact heq
  · exact absurd h.symm (Nat.ne_of_lt (toOrdinal_lt_of_dateLt hb ha hgt))

theorem dateLt_iff_toOrdinal {a b : Date} (ha : a.Valid) (hb : b.Valid) :
    dateLt a b ↔ toOrdinal a < toOrdinal b := by
  constructor
  · exact toOrdinal_lt_of_dateLt ha hb
  · intro h
    rcases dateLt_trichotomy a b with hlt | heq | hgt
    · exact hlt
    · subst heq; omega
    · exact absurd (toOrdinal_lt_of_dateLt hb ha hgt) (by omega)

theorem dateLe_iff_toOrdinal {a b : Date} (ha : a.Valid) (hb : b.Valid) :
    dateLe a b ↔ toOrdinal a ≤ toOrdinal b := by
  rw [dateLe_iff]
  constructor
  · rintro (hlt | heq)
    · exact Nat.le_of_lt ((dateLt_iff_toOrdinal ha hb).mp hlt)
    · subst heq; exact le_refl _
  · intro h
    rcases Nat.lt_or_ge (toOrdinal a) (toOrdinal b) with hlt | hge
    · exact Or.inl ((dateLt_iff_toOrdinal ha hb).mpr hlt)
    · exact Or.inr (toOrdinal_inj ha hb (by omega))

theorem addDays_toOrdinal_eq {base dt : Date} (hbase : base.Valid) (hdt : dt.Valid)
    (h : toOrdinal base ≤ toOrdinal dt) :
    addDays (toOrdinal dt - toOrdinal base) base = dt := by
  apply toOrdinal_inj (valid_addDays hbase _) hdt
  rw [toOrdinal_addDays hbase]
  omega

theorem roundHalfEven_intCast (k : ℤ) : roundHalfEven (k : ℚ) = k := by
  unfold roundHalfEven
  rw [Int.floor_intCast, sub_self]
  norm_num

theorem round2_of_isCent {q : ℚ} (h : IsCent q) : round2 q = q := by
  obtain ⟨k, rfl⟩ := h
  unfold round2
  have h100 : (100 : ℚ) * ((k : ℚ) / 100) = (k : ℚ) := by
    field_simp
  rw [h100, roundHalfEven_intCast]

theorem isCent_round2 (q : ℚ) : IsCent (round2 q) :=
  ⟨roundHalfEven (100 * q), rfl⟩

theorem isCent_zero : IsCent 0 := ⟨0, by norm_num⟩

theorem isCent_add {a b : ℚ} (ha : IsCent a) (hb : IsCent b) : IsCent (a + b) := by
  obtain ⟨k, rfl⟩ := ha
  obtain ⟨l, rfl⟩ := hb
  exact ⟨k + l, by push_cast; ring⟩

theorem isCent_sub {a b : ℚ} (ha : IsCent a) (hb : IsCent b) : IsCent (a - b) := by
  obtain ⟨k, rfl⟩ := ha
  obtain ⟨l, rfl⟩ := hb
  exact ⟨k - l, by push_cast; ring⟩

theorem isCent_listSum {l : List ℚ} (h : ∀ x ∈ l, IsCent x) : IsCent l.sum := by
  induction l with
  | nil => exact isCent_zero
  | cons a t ih =>
    rw [List.sum_cons]
    exact isCent_add (h a (List.mem_cons_self a t))
      (ih (fun x hx => h x (List.mem_cons_of_mem a hx)))

theorem isCent_finsetSum {s : Finset ℕ} {f : ℕ → ℚ} (h : ∀ i ∈ s, IsCent (f i)) :
    IsCent (∑ i ∈ s, f i) :=
  Finset.sum_induction f IsCent (fun _ _ => isCent_add) isCent_zero h

theorem changeOn_nil (dt : Date) : changeOn [] dt = 0 := rfl

theorem changeOn_append (p q : List (Date × ℚ)) (dt : Date) :
    changeOn (p ++ q) dt = changeOn p dt + changeOn q dt := by
  unfold changeOn
  rw [List.filter_append, List.map_append, List.sum_append]

theorem changeOn_eq_zero_of_not_mem {pairs : List (Date × ℚ)} {dt : Date}
    (h : dt ∉ pairs.map Prod.fst) : changeOn pairs dt = 0 := by
  unfold changeOn
  have hf : pairs.filter (fun p => decide (p.1 = dt)) = [] := by
    rw [List.filter_eq_nil_iff]
    intro p hp
    simp only [decide_eq_true_eq]
    intro hpe
    exact h (List.mem_map.mpr ⟨p, hp, hpe⟩)
  rw [hf]
  rfl

theorem foldl_dict_of_not_mem {dt : Date} (pairs : List (Date × ℚ))
    (h : ∀ p ∈ pairs, p.1 ≠ dt) (acc : Option ℚ) :
    pairs.foldl (fun acc p => if p.1 = dt then some p.2 else acc) acc = acc := by
  induction pairs generalizing acc with
  | nil => rfl
  | cons a t ih =>
    rw [List.foldl_cons, if_neg (h a (List.mem_cons_self a t))]
    exact ih (fun p hp => h p (List.mem_cons_of_mem a hp)) acc

theorem map_fst_zip_sublist (dates : List Date) (vals : List ℚ) :
    ∀ p ∈ dates.zip vals, p.1 ∈ dates := by
  intro p hp
  obtain ⟨a, b⟩ := p
  exact (List.of_mem_zip hp).1

theorem getD_mem_of_lt {α : Type} [Inhabited α] {l : List α} {i : ℕ}
    (h : i < l.length) (d : α) : l.getD i d ∈ l := by
  rw [List.getD_eq_getElem l d h]
  exact List.getElem_mem h

theorem dictLookup_zip {dt : Date} : ∀ {dates : List Date} {changes : List ℚ},
    dates.Nodup → changes.length = dates.length →
    ∀ {i : ℕ}, i < dates.length → dates.getD i default = dt →
    dictLookup (dates.zip changes) dt = changes.getD i 0 := by
  intro dates
  induction dates with
  | nil =>
    intro changes _ _ i hi
    simp at hi
  | cons a t ih =>
    intro changes hnd hl i hi hdt
    match changes with
    | [] => simp at hl
    | v :: w =>
      have hlw : w.length = t.length := by
        simpa using hl
      unfold dictLookup
      rw [List.zip_cons_cons, List.foldl_cons]
      cases i with
      | zero =>
        rw [List.getD_cons_zero] at hdt
        rw [if_pos (show (a, v).1 = dt from hdt)]
        rw [foldl_dict_of_not_mem]
        · rfl
        · intro p hp hpe
          have hp1 : p.1 ∈ t := by
            obtain ⟨x, y⟩ := p
            exact (List.of_mem_zip hp).1
          rw [hpe, ← hdt] at hp1
          exact (List.nodup_cons.mp hnd).1 hp1
      | succ j =>
        have hjt : j < t.length := by
          simpa using hi
        rw [List.getD_cons_succ] at hdt
        have hmem : dt ∈ t := by
          rw [← hdt]
          exact getD_mem_of_lt hjt default
        have hane : (a, v).1 ≠ dt := by
          intro hae
          have hae2 : a = dt := hae
          rw [← hae2] at hmem
          exact (List.nodup_cons.mp hnd).1 hmem
        rw [if_neg hane, List.getD_cons_succ]
        have := ih (List.nodup_cons.mp hnd).2 hlw hjt hdt
        unfold dictLookup at this
        exact this

theorem dictLookup_zip_map {dates : List Date} {g : Date → ℚ} (hnd : dates.Nodup)
    {dt : Date} (hdt : dt ∈ dates) :
    dictLookup (dates.zip (dates.map g)) dt = g dt := by
  obtain ⟨j, hj, hje⟩ := List.getElem_of_mem hdt
  have h1 : dates.getD j default = dt := by
    rw [List.getD_eq_getElem dates default hj, hje]
  have h2 := dictLookup_zip hnd (List.length_map dates g) hj h1
  rw [h2, List.getD_eq_getElem _ 0 (lt_of_lt_of_eq hj (List.length_map dates g).symm),
    List.getElem_map, hje]

theorem changeOn_zip_not_mem {days : List Date} {vals : List ℚ} {dt : Date}
    (h : dt ∉ days) : changeOn (days.zip vals) dt = 0 := by
  apply changeOn_eq_zero_of_not_mem
  intro hmem
  obtain ⟨p, hp, hpe⟩ := List.mem_map.mp hmem
  have : p.1 ∈ days := by
    obtain ⟨x, y⟩ := p
    exact (List.of_mem_zip hp).1
  exact h (hpe ▸ this)

theorem changeOn_zip_getD {dt : Date} : ∀ {days : List Date} {vals : List ℚ},
    days.Nodup → vals.length = days.length →
    ∀ {i : ℕ}, i < days.length → days.getD i default = dt →
    changeOn (days.zip vals) dt = vals.getD i 0 := by
  intro days
  induction days with
  | nil =>
    intro vals _ _ i hi
    simp at hi
  | cons a t ih =>
    intro vals hnd hl i hi hdt
    match vals with
    | [] => simp at hl
    | v :: w =>
      have hlw : w.length = t.length := by
        simpa using hl
      rw [List.zip_cons_cons]
      unfold changeOn
      rw [List.filter_cons]
      cases i with
      | zero =>
        rw [List.getD_cons_zero] at hdt
        rw [if_pos (by simpa using hdt)]
        rw [List.map_cons, List.sum_cons, List.getD_cons_zero]
        have h0 : changeOn (t.zip w) dt = 0 := by
          apply changeOn_zip_not_mem
          rw [← hdt]
          exact (List.nodup_cons.mp hnd).1
        unfold changeOn at h0
        rw [h0, add_zero]
      | succ j =>
        have hjt : j < t.length := by
          simpa using hi
        rw [List.getD_cons_succ] at hdt
        have hmem : dt ∈ t := by
          rw [← hdt]
          exact getD_mem_of_lt hjt default
        have hane : ¬ ((a, v).1 = dt) := by
          intro hae
          have hae2 : a = dt := hae
          rw [← hae2] at hmem
          exact (List.nodup_cons.mp hnd).1 hmem
        rw [if_neg (by simpa using hane), List.getD_cons_succ]
        have := ih (List.nodup_cons.mp hnd).2 hlw hjt hdt
        unfold changeOn at this
        exact this

theorem changeOn_zip_map {days : List Date} {g : Date → ℚ} (hnd : days.Nodup)
    (dt : Date) :
    changeOn (days.zip (days.map g)) dt = if dt ∈ days then g dt else 0 := by
  by_cases hmem : dt ∈ days
  · rw [if_pos hmem]
    obtain ⟨j, hj, hje⟩ := List.getElem_of_mem hmem
    have h1 : days.getD j default = dt := by
      rw [List.getD_eq_getElem days default hj, hje]
    have h2 := changeOn_zip_getD hnd (List.length_map days g) hj h1
    rw [h2, List.getD_eq_getElem _ 0 (lt_of_lt_of_eq hj (List.length_map days g).symm),
      List.getElem_map, hje]
  · rw [if_neg hmem]
    exact changeOn_zip_not_mem hmem

theorem cumulativeSums_length (acc : ℚ) (l : List ℚ) :
    (cumulativeSums acc l).length = l.length := by
  induction l generalizing acc with
  | nil => rfl
  | cons c rest ih =>
    unfold cumulativeSums
    rw [List.length_cons, List.length_cons, ih]

theorem cumulativeSums_getD (l : List ℚ) : ∀ (acc : ℚ) (i : ℕ), i < l.length →
    (cumulativeSums acc l).getD i 0 = acc + (l.take (i + 1)).sum := by
  induction l with
  | nil =>
    intro acc i hi
    simp at hi
  | cons c rest ih =>
    intro acc i hi
    unfold cumulativeSums
    cases i with
    | zero =>
      rw [List.getD_cons_zero]
      simp
    | succ j =>
      rw [List.getD_cons_succ]
      have hj : j < rest.length := by
        simpa using hi
      rw [ih (acc + c) j hj]
      rw [List.take_succ_cons, List.sum_cons]
      ring

theorem convert_length (init : ℚ) (l : List ℚ) :
    (convert_changes_to_balances init l).length = l.length := by
  unfold convert_changes_to_balances
  rw [List.length_map, cumulativeSums_length]

theorem convert_getD (init : ℚ) (l : List ℚ) {i : ℕ} (hi : i < l.length) :
    (convert_changes_to_balances init l).getD i 0
      = round2 (init + (l.take (i + 1)).sum) := by
  unfold convert_changes_to_balances
  have hlen : i < (cumulativeSums 0 l).length := by
    rw [cumulativeSums_length]; exact hi
  rw [List.getD_eq_getElem _ 0 (by simpa using hlen), List.getElem_map,
    ← List.getD_eq_getElem _ 0 hlen, cumulativeSums_getD l 0 i hi, zero_add]

theorem sum_map_range (n : ℕ) (f : ℕ → ℚ) :
    ((List.range n).map f).sum = ∑ j ∈ Finset.range n, f j := by
  induction n with
  | zero => rfl
  | succ k ih =>
    rw [List.range_succ, List.map_append, List.sum_append, Finset.sum_range_succ, ih]
    simp

theorem dateLt_of_dateLe_ne {a b : Date} (h : dateLe a b) (hne : a ≠ b) :
    dateLt a b := by
  obtain ⟨ay, am, ad⟩ := a
  obtain ⟨cy, cm, cd⟩ := b
  simp only [dateLe, dateLt, Ne, Date.mk.injEq] at *
  omega

theorem sorted_head_le {a : Date} {l : List Date}
    (h : List.Sorted dateLe (a :: l)) : ∀ x ∈ a :: l, dateLe a x := by
  intro x hx
  rcases List.mem_cons.mp hx with rfl | hx
  · exact dateLe_refl x
  · exact (List.pairwise_cons.mp h).1 x hx

theorem sorted_le_getLast : ∀ {l : List Date}, List.Sorted dateLe l →
    ∀ (hne : l ≠ []), ∀ x ∈ l, dateLe x (l.getLast hne) := by
  intro l
  induction l with
  | nil =>
    intro _ hne
    exact absurd rfl hne
  | cons a t ih =>
    intro h hne x hx
    cases t with
    | nil =>
      rcases List.mem_cons.mp hx with rfl | hx
      · exact dateLe_refl x
      · simp at hx
    | cons b u =>
      rw [List.getLast_cons (List.cons_ne_nil b u)]
      rcases List.mem_cons.mp hx with rfl | hx
      · exact (List.pairwise_cons.mp h).1 _
          (List.getLast_mem (List.cons_ne_nil b u))
      · exact ih (List.pairwise_cons.mp h).2 (List.cons_ne_nil b u) x hx

theorem sorted_lt_of_sorted_nodup {l : List Date}
    (hs : List.Sorted dateLe l) (hn : l.Nodup) : List.Sorted dateLt l :=
  (hs.and hn).imp (fun h => dateLt_of_dateLe_ne h.1 h.2)

theorem fillDays_length (first last : Date) :
    (fillDays first last).length = toOrdinal last + 1 - toOrdinal first := by
  unfold fillDays
  rw [List.length_map, List.length_range]

theorem fillDays_getElem (first last : Date) {i : ℕ}
    (hi : i < (fillDays first last).length) :
    (fillDays first last)[i] = addDays i first := by
  unfold fillDays at hi ⊢
  rw [List.getElem_map, List.getElem_range]

theorem mem_fillDays {first last dt : Date} (hf : first.Valid) :
    dt ∈ fillDays first last ↔
      dt.Valid ∧ toOrdinal first ≤ toOrdinal dt ∧ toOrdinal dt ≤ toOrdinal last := by
  unfold fillDays
  rw [List.mem_map]
  constructor
  · rintro ⟨i, hi, rfl⟩
    rw [List.mem_range] at hi
    refine ⟨valid_addDays hf i, ?_, ?_⟩ <;> rw [toOrdinal_addDays hf] <;> omega
  · rintro ⟨hv, h1, h2⟩
    refine ⟨toOrdinal dt - toOrdinal first, ?_, addDays_toOrdinal_eq hf hv h1⟩
    rw [List.mem_range]
    omega

theorem fillDays_nodup {first : Date} (hf : first.Valid) (last : Date) :
    (fillDays first last).Nodup := by
  unfold fillDays
  refine List.Nodup.map_on ?_ (List.nodup_range _)
  intro i hi j hj hij
  have h1 := toOrdinal_addDays hf i
  have h2 := toOrdinal_addDays hf j
  rw [hij] at h1
  omega

theorem fillDays_chain {first : Date} (last : Date) :
    List.Chain' (fun a b => b = nextDay a) (fillDays first last) := by
  rw [List.chain'_iff_get]
  intro i hi
  have hi1 : i + 1 < (fillDays first last).length := by omega
  have hi0 : i < (fillDays first last).length := by omega
  rw [List.get_eq_getElem, List.get_eq_getElem, fillDays_getElem first last hi0,
    fillDays_getElem first last hi1]
  exact addDays_succ i first

theorem fillDays_sorted {first : Date} (hf : first.Valid) (last : Date) :
    List.Sorted dateLt (fillDays first last) := by
  rw [List.Sorted, List.pairwise_iff_get]
  intro i j hij
  rw [List.get_eq_getElem, List.get_eq_getElem, fillDays_getElem first last i.isLt,
    fillDays_getElem first last j.isLt]
  rw [dateLt_iff_toOrdinal (valid_addDays hf _) (valid_addDays hf _),
    toOrdinal_addDays hf, toOrdinal_addDays hf]
  omega

theorem fill_eq_of_ne_nil {dates : List Date} (hne : dates ≠ []) (changes : List ℚ) :
    fill_no_transact_days dates changes =
      some (fillDays (dates.head hne) (dates.getLast hne),
        (fillDays (dates.head hne) (dates.getLast hne)).map (fun dt =>
          if dt ∈ dates then dictLookup (dates.zip changes) dt else 0)) := by
  match dates with
  | first :: rest => rfl

theorem chain_nextDay_getElem {dates : List Date} (hne : dates ≠ [])
    (hc : List.Chain' (fun a b => b = nextDay a) dates) :
    ∀ i, ∀ hi : i < dates.length, dates[i] = addDays i (dates.head hne) := by
  intro i
  induction i with
  | zero =>
    intro hi
    rw [addDays_zero]
    exact (List.head_eq_getElem dates hne).symm
  | succ k ih =>
    intro hi
    have hk : k < dates.length := by omega
    have hkk : k < dates.length - 1 := by omega
    have hstep := (List.chain'_iff_get.mp hc) k hkk
    rw [List.get_eq_getElem, List.get_eq_getElem] at hstep
    rw [hstep, ih hk, addDays_succ]

theorem chain_nextDay_eq_fillDays {dates : List Date} (hne : dates ≠ [])
    (hv : (dates.head hne).Valid)
    (hc : List.Chain' (fun a b => b = nextDay a) dates) :
    dates = fillDays (dates.head hne) (dates.getLast hne) := by
  have hlen0 : 0 < dates.length := List.length_pos.mpr hne
  have hlast : dates.getLast hne = dates[dates.length - 1] :=
    List.getLast_eq_getElem dates hne
  have hlastord : toOrdinal (dates.getLast hne)
      = toOrdinal (dates.head hne) + (dates.length - 1) := by
    rw [hlast, chain_nextDay_getElem hne hc (dates.length - 1) (by omega),
      toOrdinal_addDays hv]
  have hlen : (fillDays (dates.head hne) (dates.getLast hne)).length
      = dates.length := by
    rw [fillDays_length, hlastord]
    omega
  apply List.ext_getElem hlen.symm
  intro i h1 h2
  rw [fillDays_getElem _ _ h2, chain_nextDay_getElem hne hc i h1]

theorem sortedUniqueDates_sorted (dates : List Date) :
    List.Sorted dateLe (sortedUniqueDates dates) :=
  List.sorted_insertionSort dateLe dates.dedup

theorem sortedUniqueDates_nodup (dates : List Date) :
    (sortedUniqueDates dates).Nodup :=
  ((List.perm_insertionSort dateLe dates.dedup).nodup_iff).mpr
    (List.nodup_dedup dates)

theorem mem_sortedUniqueDates {dates : List Date} {x : Date} :
    x ∈ sortedUniqueDates dates ↔ x ∈ dates :=
  ((List.perm_insertionSort dateLe dates.dedup).mem_iff).trans
    (List.mem_dedup)

theorem sortedUniqueDates_ne_nil {dates : List Date} (hne : dates ≠ []) :
    sortedUniqueDates dates ≠ [] := by
  intro h
  apply hne
  have hp := List.perm_insertionSort dateLe dates.dedup
  rw [sortedUniqueDates] at h
  rw [h] at hp
  have hlen := hp.length_eq
  rw [List.length_nil] at hlen
  exact (List.dedup_eq_nil dates).mp (List.length_eq_zero.mp hlen.symm)

theorem collapse_fst_reverse (dates : List Date) (changes : List ℚ) :
    (collapse_date_change dates changes).1.reverse = sortedUniqueDates dates := by
  show ((List.insertionSort dateLe dates.dedup).reverse).reverse = _
  rw [List.reverse_reverse]
  rfl

theorem collapse_snd_reverse (dates : List Date) (changes : List ℚ) :
    (collapse_date_change dates changes).2.reverse =
      (sortedUniqueDates dates).map
        (fun dt => round2 (changeOn (dates.zip changes) dt)) := by
  show (((List.insertionSort dateLe dates.dedup).reverse).map _).reverse = _
  rw [← List.map_reverse, List.reverse_reverse]
  rfl

theorem round2_zero : round2 0 = 0 := round2_of_isCent isCent_zero

theorem headI_eq_head {l : List Date} (hne : l ≠ []) : l.headI = l.head hne := by
  cases l with
  | nil => exact absurd rfl hne
  | cons a t => rfl

theorem getLastI_eq_getLast {l : List Date} (hne : l ≠ []) :
    l.getLastI = l.getLast hne := by
  rw [List.getLastI_eq_getLast?, List.getLast?_eq_getLast l hne]

theorem headI_mem {l : List Date} (hne : l ≠ []) : l.headI ∈ l := by
  rw [headI_eq_head hne]
  exact List.head_mem hne

theorem getLastI_mem {l : List Date} (hne : l ≠ []) : l.getLastI ∈ l := by
  rw [getLastI_eq_getLast hne]
  exact List.getLast_mem hne

theorem valid_mem_fillDays {first last dt : Date} (hf : first.Valid)
    (h : dt ∈ fillDays first last) : dt.Valid := by
  unfold fillDays at h
  obtain ⟨i, _, rfl⟩ := List.mem_map.mp h
  exact valid_addDays hf i

theorem fillDays_ne_nil {first last : Date}
    (h : toOrdinal first ≤ toOrdinal last) : fillDays first last ≠ [] := by
  intro hc
  have := fillDays_length first last
  rw [hc] at this
  simp at this
  omega

theorem fill_sorted_map {u : List Date} {g : Date → ℚ} (hne : u ≠ [])
    (hnd : u.Nodup) (hg0 : ∀ dt, dt ∉ u → g dt = 0) :
    fill_no_transact_days u (u.map g)
      = some (fillDays (u.head hne) (u.getLast hne),
              (fillDays (u.head hne) (u.getLast hne)).map g) := by
  rw [fill_eq_of_ne_nil hne]
  congr 1
  congr 1
  apply List.map_congr_left
  intro dt hdt
  by_cases hmem : dt ∈ u
  · rw [if_pos hmem, dictLookup_zip_map hnd hmem]
  · rw [if_neg hmem, hg0 dt hmem]

theorem seriesAt_map {days : List Date} (hnd : days.Nodup) (g : Date → ℚ)
    (dt : Date) : seriesAt days (days.map g) dt = if dt ∈ days then g dt else 0 :=
  changeOn_zip_map hnd dt

theorem seriesAt_convert {first last : Date} (hf : first.Valid) (g : Date → ℚ)
    (init : ℚ) {dt : Date} (hdt : dt ∈ fillDays first last) :
    seriesAt (fillDays first last)
        (convert_changes_to_balances init ((fillDays first last).map g)) dt
      = round2 (init + ∑ j ∈ Finset.range (toOrdinal dt - toOrdinal first + 1),
          g (addDays j first)) := by
  have hv := valid_mem_fillDays hf hdt
  have hbounds := (mem_fillDays hf).mp hdt
  have hnd := fillDays_nodup hf last
  set n := toOrdinal last + 1 - toOrdinal first with hn
  set i := toOrdinal dt - toOrdinal first with hi
  have hlen : (fillDays first last).length = n := fillDays_length first last
  have hin : i < n := by omega
  have hilen : i < (fillDays first last).length := by omega
  have hgete : (fillDays first last)[i] = addDays i first :=
    fillDays_getElem first last hilen
  have hdt_eq : addDays i first = dt := addDays_toOrdinal_eq hf hv (by omega)
  have hgetd : (fillDays first last).getD i default = dt := by
    rw [List.getD_eq_getElem _ default hilen, hgete, hdt_eq]
  have hlenb : (convert_changes_to_balances init ((fillDays first last).map g)).length
      = (fillDays first last).length := by
    rw [convert_length, List.length_map]
  have h1 : seriesAt (fillDays first last)
      (convert_changes_to_balances init ((fillDays first last).map g)) dt
      = (convert_changes_to_balances init ((fillDays first last).map g)).getD i 0 :=
    changeOn_zip_getD hnd hlenb hilen hgetd
  rw [h1, convert_getD init _ (by rw [List.length_map]; exact hilen)]
  congr 1
  congr 1
  have hmm : (fillDays first last).map g
      = (List.range n).map (fun j => g (addDays j first)) := by
    unfold fillDays
    rw [List.map_map]
    rfl
  rw [hmm, ← List.map_take, List.take_range, min_eq_left (by omega : i + 1 ≤ n),
    sum_map_range]

theorem sorted_headI_le {l : List Date} (hs : List.Sorted dateLe l)
    (hne : l ≠ []) : ∀ x ∈ l, dateLe l.headI x := by
  cases l with
  | nil => exact absurd rfl hne
  | cons a t => exact sorted_head_le hs

theorem sorted_le_getLastI {l : List Date} (hs : List.Sorted dateLe l)
    (hne : l ≠ []) : ∀ x ∈ l, dateLe x l.getLastI := by
  rw [getLastI_eq_getLast hne]
  exact sorted_le_getLast hs hne

theorem valid_mem_sortedUniqueDates {dates : List Date}
    (hv : ∀ d ∈ dates, d.Valid) : ∀ d ∈ sortedUniqueDates dates, d.Valid :=
  fun d hd => hv d (mem_sortedUniqueDates.mp hd)

theorem sud_headI_valid {dates : List Date} (hne : dates ≠ [])
    (hv : ∀ d ∈ dates, d.Valid) : (sortedUniqueDates dates).headI.Valid :=
  valid_mem_sortedUniqueDates hv _ (headI_mem (sortedUniqueDates_ne_nil hne))

theorem sud_getLastI_valid {dates : List Date} (hne : dates ≠ [])
    (hv : ∀ d ∈ dates, d.Valid) : (sortedUniqueDates dates).getLastI.Valid :=
  valid_mem_sortedUniqueDates hv _ (getLastI_mem (sortedUniqueDates_ne_nil hne))

theorem sud_ord_le {dates : List Date} (hne : dates ≠ [])
    (hv : ∀ d ∈ dates, d.Valid) :
    toOrdinal (sortedUniqueDates dates).headI
      ≤ toOrdinal (sortedUniqueDates dates).getLastI := by
  have hune := sortedUniqueDates_ne_nil hne
  have hle := sorted_headI_le (sortedUniqueDates_sorted dates) hune _
    (getLastI_mem hune)
  exact (dateLe_iff_toOrdinal (sud_headI_valid hne hv)
    (sud_getLastI_valid hne hv)).mp hle

theorem accountFillDays_ne_nil {dates : List Date} (hne : dates ≠ [])
    (hv : ∀ d ∈ dates, d.Valid) : accountFillDays dates ≠ [] :=
  fillDays_ne_nil (sud_ord_le hne hv)

theorem valid_mem_accountFillDays {dates : List Date} (hne : dates ≠ [])
    (hv : ∀ d ∈ dates, d.Valid) :
    ∀ d ∈ accountFillDays dates, d.Valid :=
  fun _ hd => valid_mem_fillDays (sud_headI_valid hne hv) hd

theorem sud_subset_accountFillDays {dates : List Date} (hne : dates ≠ [])
    (hv : ∀ d ∈ dates, d.Valid) :
    ∀ d ∈ sortedUniqueDates dates, d ∈ accountFillDays dates := by
  intro d hd
  have hune := sortedUniqueDates_ne_nil hne
  have hdv := valid_mem_sortedUniqueDates hv d hd
  have h1 := sorted_headI_le (sortedUniqueDates_sorted dates) hune d hd
  have h2 := sorted_le_getLastI (sortedUniqueDates_sorted dates) hune d hd
  exact (mem_fillDays (sud_headI_valid hne hv)).mpr
    ⟨hdv, (dateLe_iff_toOrdinal (sud_headI_valid hne hv) hdv).mp h1,
      (dateLe_iff_toOrdinal hdv (sud_getLastI_valid hne hv)).mp h2⟩

theorem accountDailyChangeFun_zero {dates : List Date} (changes : List ℚ)
    {dt : Date} (h : dt ∉ dates) : accountDailyChangeFun dates changes dt = 0 := by
  unfold accountDailyChangeFun
  rw [changeOn_zip_not_mem h, round2_zero]

theorem account_fill_eq {dates : List Date} (changes : List ℚ) (hne : dates ≠ [])
    (hv : ∀ d ∈ dates, d.Valid) :
    fill_no_transact_days (sortedUniqueDates dates)
        ((sortedUniqueDates dates).map (accountDailyChangeFun dates changes))
      = some (accountFillDays dates,
          (accountFillDays dates).map (accountDailyChangeFun dates changes)) := by
  have hune := sortedUniqueDates_ne_nil hne
  rw [fill_sorted_map hune (sortedUniqueDates_nodup dates)
    (fun dt hdt => accountDailyChangeFun_zero changes
      (fun hmem => hdt (mem_sortedUniqueDates.mpr hmem)))]
  unfold accountFillDays
  rw [headI_eq_head hune, getLastI_eq_getLast hune]

theorem collapse_snd_reverse_fun (dates : List Date) (changes : List ℚ) :
    (collapse_date_change dates changes).2.reverse
      = (sortedUniqueDates dates).map (accountDailyChangeFun dates changes) :=
  collapse_snd_reverse dates changes

theorem mkBankingHistory_eq (ic isv : ℚ) (cd : List Date) (cc : List ℚ)
    (sd : List Date) (sc : List ℚ) (hcne : cd ≠ []) (hsne : sd ≠ [])
    (hcv : ∀ d ∈ cd, d.Valid) (hsv : ∀ d ∈ sd, d.Valid) :
    mkBankingHistory ic isv cd cc sd sc
      = some (bankingHistorySpec ic isv cd cc sd sc) := by
  have hCfill := @account_fill_eq cd cc hcne hcv
  have hSfill := @account_fill_eq sd sc hsne hsv
  have hcatne : accountFillDays cd ++ accountFillDays sd ≠ [] := by
    intro h
    exact accountFillDays_ne_nil hcne hcv (List.append_eq_nil.mp h).1
  have hcatv : ∀ d ∈ accountFillDays cd ++ accountFillDays sd, d.Valid := by
    intro d hd
    rcases List.mem_append.mp hd with h | h
    · exact valid_mem_accountFillDays hcne hcv d h
    · exact valid_mem_accountFillDays hsne hsv d h
  have hBfill := @account_fill_eq
    (accountFillDays cd ++ accountFillDays sd)
    ((accountFillDays cd).map (accountDailyChangeFun cd cc)
      ++ (accountFillDays sd).map (accountDailyChangeFun sd sc)) hcatne hcatv
  obtain ⟨tC, htC⟩ : ∃ t, sortedUniqueDates cd = (sortedUniqueDates cd).headI :: t :=
    ⟨(sortedUniqueDates cd).tail, by
      rw [headI_eq_head (sortedUniqueDates_ne_nil hcne)]
      exact (List.head_cons_tail _ _).symm⟩
  obtain ⟨tS, htS⟩ : ∃ t, sortedUniqueDates sd = (sortedUniqueDates sd).headI :: t :=
    ⟨(sortedUniqueDates sd).tail, by
      rw [headI_eq_head (sortedUniqueDates_ne_nil hsne)]
      exact (List.head_cons_tail _ _).symm⟩
  simp only [mkBankingHistory]
  rw [collapse_fst_reverse cd cc, collapse_snd_reverse_fun cd cc,
    collapse_fst_reverse sd sc, collapse_snd_reverse_fun sd sc, hCfill, hSfill]
  rw [htC, htS, List.map_cons, List.map_cons]
  dsimp only
  rw [collapse_fst_reverse (accountFillDays cd ++ accountFillDays sd)
      ((accountFillDays cd).map (accountDailyChangeFun cd cc)
        ++ (accountFillDays sd).map (accountDailyChangeFun sd sc)),
    collapse_snd_reverse_fun (accountFillDays cd ++ accountFillDays sd)
      ((accountFillDays cd).map (accountDailyChangeFun cd cc)
        ++ (accountFillDays sd).map (accountDailyChangeFun sd sc)),
    hBfill]
  rfl

theorem sum_take_cents {l : List ℚ} (h : ∀ c ∈ l, IsCent c) (n : ℕ) :
    IsCent ((l.take n).sum) :=
  isCent_listSum (fun x hx => h x (List.take_subset n l hx))

/-- Claim C2, counterexample: on initial balance `0` and the non-empty change
list `[0.004, 0.004]`, `convert_changes_to_balances` reports a first balance of
`round(0 + 0.004, 2) = 0`, which differs from `initial_balance + change[0] =
0.004`, so the claimed recurrence does not hold for arbitrary (non-whole-cent)
inputs. -/
theorem claim2_counterexample :
    (convert_changes_to_balances 0 [1 / 250, 1 / 250]).getD 0 0 ≠ 0 + 1 / 250 := by
  have h1 : (convert_changes_to_balances 0 [1 / 250, 1 / 250]).getD 0 0
      = round2 (0 + ((([1 / 250, 1 / 250] : List ℚ).take 1).sum)) :=
    convert_getD 0 [1 / 250, 1 / 250] (by norm_num)
  have h2 : ((([1 / 250, 1 / 250] : List ℚ).take 1).sum) = 1 / 250 := by
    norm_num
  rw [h1, h2]
  norm_num [round2, roundHalfEven]

/-- Claim C2 (amended): `convert_changes_to_balances` returns a list parallel
to the change list in which entry `i` is the running sum
`initial_balance + change[0] + ... + change[i]` rounded to 2 decimal places
(the running sum is rounded at each day, with no re-rounding feedback into the
next day); the recurrence `balance[0] = initial_balance + change[0]`,
`balance[i] = balance[i-1] + change[i]` holds exactly whenever the initial
balance and all changes are whole-cent amounts, as the pipeline guarantees. -/
theorem claim2_amended (initial_balance : ℚ) (list_of_changes : List ℚ) :
    (convert_changes_to_balances initial_balance list_of_changes).length
        = list_of_changes.length
    ∧ (∀ i < list_of_changes.length,
        (convert_changes_to_balances initial_balance list_of_changes).getD i 0
          = round2 (initial_balance + (list_of_changes.take (i + 1)).sum))
    ∧ (IsCent initial_balance → (∀ c ∈ list_of_changes, IsCent c) →
        list_of_changes ≠ [] →
        (convert_changes_to_balances initial_balance list_of_changes).getD 0 0
            = initial_balance + list_of_changes.getD 0 0
        ∧ ∀ i, 0 < i → i < list_of_changes.length →
            (convert_changes_to_balances initial_balance list_of_changes).getD i 0
              = (convert_changes_to_balances initial_balance list_of_changes).getD
                  (i - 1) 0 + list_of_changes.getD i 0) := by
  refine ⟨convert_length initial_balance list_of_changes,
    fun i hi => convert_getD initial_balance list_of_changes hi, ?_⟩
  intro hcent hccent hne
  have hlen0 : 0 < list_of_changes.length := List.length_pos.mpr hne
  constructor
  · rw [convert_getD initial_balance list_of_changes hlen0]
    have htake : (list_of_changes.take 1).sum = list_of_changes.getD 0 0 := by
      cases list_of_changes with
      | nil => exact absurd rfl hne
      | cons c t => simp
    rw [htake, round2_of_isCent (isCent_add hcent ?_)]
    cases list_of_changes with
    | nil => exact absurd rfl hne
    | cons c t =>
      rw [List.getD_cons_zero]
      exact hccent c (List.mem_cons_self c t)
  · intro i h0 hi
    rw [convert_getD initial_balance list_of_changes hi,
      convert_getD initial_balance list_of_changes (by omega : i - 1 < list_of_changes.length)]
    have hstep : (list_of_changes.take (i + 1)).sum
        = (list_of_changes.take i).sum + list_of_changes.getD i 0 := by
      have := List.sum_take_succ list_of_changes i hi
      rw [this, List.getD_eq_getElem _ 0 hi]
    have hi1 : i - 1 + 1 = i := by omega
    have hgc : IsCent (list_of_changes.getD i 0) := by
      rw [List.getD_eq_getElem _ 0 hi]
      exact hccent _ (List.getElem_mem hi)
    rw [hi1, hstep, ← add_assoc,
      round2_of_isCent (isCent_add (isCent_add hcent (sum_take_cents hccent i)) hgc),
      round2_of_isCent (isCent_add hcent (sum_take_cents hccent i))]

/-- Witness for the amended claim C2 at initial balance `5` and changes
`[2, 3]`: the first balance is `7` and the second is the first plus `3`. -/
theorem claim2_witness :
    (convert_changes_to_balances 5 [2, 3]).getD 0 0 = 5 + (2 : ℚ)
    ∧ (convert_changes_to_balances 5 [2, 3]).getD 1 0
        = (convert_changes_to_balances 5 [2, 3]).getD 0 0 + 3 := by
  have h := (claim2_amended 5 [2, 3]).2.2 ⟨500, by norm_num⟩
    (by
      intro c hc
      rcases List.mem_cons.mp hc with rfl | hc
      · exact ⟨200, by norm_num⟩
      rcases List.mem_cons.mp hc with rfl | hc
      · exact ⟨300, by norm_num⟩
      · simp at hc)
    (by simp)
  refine ⟨?_, ?_⟩
  · simpa using h.1
  · have h1 := h.2 1 (by norm_num) (by norm_num)
    simpa using h1

/-- Claim C10: on a non-empty all-valid date list whose first date is strictly
later than its last date (e.g. a reverse-chronological list),
`fill_no_transact_days` returns two empty lists — the day walk from the first
date never reaches the earlier last date — rather than raising an error or
reordering the input. -/
theorem claim10_reverse_input {list_of_dates : List Date} (list_of_changes : List ℚ)
    (hne : list_of_dates ≠ []) (hv : ∀ d ∈ list_of_dates, d.Valid)
    (hrev : dateLt (list_of_dates.getLast hne) (list_of_dates.head hne)) :
    fill_no_transact_days list_of_dates list_of_changes = some ([], []) := by
  rw [fill_eq_of_ne_nil hne]
  have hlt := toOrdinal_lt_of_dateLt (hv _ (List.getLast_mem hne))
    (hv _ (List.head_mem hne)) hrev
  have h0 : toOrdinal (list_of_dates.getLast hne) + 1
      - toOrdinal (list_of_dates.head hne) = 0 := by omega
  unfold fillDays
  rw [h0]
  rfl

/-- Witness for claim C10: the two-day reverse-chronological input
`[2021-01-02, 2021-01-01]` yields `([], [])`. -/
theorem claim10_witness :
    fill_no_transact_days [⟨2021, 1, 2⟩, ⟨2021, 1, 1⟩] [1, 2] = some ([], []) :=
  claim10_reverse_input [1, 2] (by decide) (by decide) (by decide)

/-- Claim C7, counterexample: an empty transaction collection is NOT signalled
as an error at the Change Collapser boundary — `collapse_date_change` silently
returns two empty lists. -/
theorem claim7_counterexample :
    collapse_date_change ([] : List Date) ([] : List ℚ) = ([], []) := rfl

/-- Claim C7 (amended): the empty-input condition is not signalled at the
Change Collapser, which silently returns two empty series; the failure
surfaces immediately afterwards as the unhandled `IndexError` of
`fill_no_transact_days` on the empty collapsed date list (modelled `none`), so
constructing the history fails with no partial result. -/
theorem claim7_amended :
    collapse_date_change ([] : List Date) ([] : List ℚ) = ([], [])
    ∧ fill_no_transact_days ([] : List Date) ([] : List ℚ) = none
    ∧ ∀ (ic isv : ℚ) (sd : List Date) (sc : List ℚ),
        mkBankingHistory ic isv [] [] sd sc = none := by
  refine ⟨rfl, rfl, ?_⟩
  intro ic isv sd sc
  rfl

/-- Claim C6, counterexample: on the ascending two-day input
`[2021-01-01, 2021-01-02]`, `collapse_date_change` returns the dates in
DESCENDING order `[2021-01-02, 2021-01-01]`, so its output is not a
chronologically ascending sequence as claimed. -/
theorem claim6_counterexample :
    (collapse_date_change [⟨2021, 1, 1⟩, ⟨2021, 1, 2⟩] [5, 7]).1
        = [⟨2021, 1, 2⟩, ⟨2021, 1, 1⟩]
    ∧ ¬ List.Sorted dateLe
        (collapse_date_change [⟨2021, 1, 1⟩, ⟨2021, 1, 2⟩] [5, 7]).1 := by
  constructor
  · rfl
  · decide

/-- Claim C6 (amended): for every non-empty collection of (date, amount) pairs,
possibly with duplicate dates and in arbitrary order, `collapse_date_change`
returns the unique transaction dates in strictly DESCENDING chronological
order (its callers reverse the result to obtain the ascending order), each
date paired with the sum of all amounts recorded on it rounded to 2 decimal
places. -/
theorem claim6_amended (list_of_dates : List Date) (list_of_changes : List ℚ)
    (hne : list_of_dates ≠ []) :
    (collapse_date_change list_of_dates list_of_changes).1 ≠ []
    ∧ List.Sorted (fun a b => dateLt b a)
        (collapse_date_change list_of_dates list_of_changes).1
    ∧ (collapse_date_change list_of_dates list_of_changes).1.Nodup
    ∧ (∀ d, d ∈ (collapse_date_change list_of_dates list_of_changes).1
        ↔ d ∈ list_of_dates)
    ∧ (collapse_date_change list_of_dates list_of_changes).2
        = (collapse_date_change list_of_dates list_of_changes).1.map
            (fun dt => round2 (changeOn (list_of_dates.zip list_of_changes) dt)) := by
  have hfst : (collapse_date_change list_of_dates list_of_changes).1
      = (sortedUniqueDates list_of_dates).reverse := rfl
  refine ⟨?_, ?_, ?_, ?_, rfl⟩
  · rw [hfst]
    intro h
    exact sortedUniqueDates_ne_nil hne (by simpa using congrArg List.reverse h)
  · rw [hfst, List.Sorted, List.pairwise_reverse]
    exact sorted_lt_of_sorted_nodup (sortedUniqueDates_sorted list_of_dates)
      (sortedUniqueDates_nodup list_of_dates)
  · rw [hfst, List.nodup_reverse]
    exact sortedUniqueDates_nodup list_of_dates
  · intro d
    rw [hfst, List.mem_reverse]
    exact mem_sortedUniqueDates

/-- Witness for the amended claim C6 at the two-day input of the
counterexample. -/
theorem claim6_witness :
    (collapse_date_change [⟨2021, 1, 1⟩, ⟨2021, 1, 2⟩] [5, 7]).1 ≠ []
    ∧ List.Sorted (fun a b => dateLt b a)
        (collapse_date_change [⟨2021, 1, 1⟩, ⟨2021, 1, 2⟩] [5, 7]).1
    ∧ (collapse_date_change [⟨2021, 1, 1⟩, ⟨2021, 1, 2⟩] [5, 7]).1.Nodup
    ∧ (∀ d, d ∈ (collapse_date_change [⟨2021, 1, 1⟩, ⟨2021, 1, 2⟩] [5, 7]).1
        ↔ d ∈ [⟨2021, 1, 1⟩, ⟨2021, 1, 2⟩])
    ∧ (collapse_date_change [⟨2021, 1, 1⟩, ⟨2021, 1, 2⟩] [5, 7]).2
        = (collapse_date_change [⟨2021, 1, 1⟩, ⟨2021, 1, 2⟩] [5, 7]).1.map
            (fun dt => round2 (changeOn
              ([⟨2021, 1, 1⟩, ⟨2021, 1, 2⟩].zip [5, 7]) dt)) :=
  claim6_amended [⟨2021, 1, 1⟩, ⟨2021, 1, 2⟩] [5, 7] (by decide)

theorem dateLt_ne {a b : Date} (h : dateLt a b) : a ≠ b :=
  fun heq => dateLt_irrefl b (heq ▸ h)

theorem nodup_of_sorted_lt {l : List Date} (h : List.Sorted dateLt l) :
    l.Nodup :=
  h.imp dateLt_ne

theorem getD_map_q {l : List Date} {F : Date → ℚ} {i : ℕ} (hi : i < l.length) :
    (l.map F).getD i 0 = F l[i] := by
  rw [List.getD_eq_getElem _ 0 (by rw [List.length_map]; exact hi),
    List.getElem_map]

/-- Claim C3: on a non-empty, chronologically strictly ascending (hence
duplicate-free) list of valid dates with a parallel change list,
`fill_no_transact_days` returns the run of every calendar day from the first
to the last input date inclusive, in ascending order with step exactly one day
— hence exactly `(last - first).days + 1` entries — where each input day keeps
its original change and each inserted day gets change `0`. -/
theorem claim3_gap_filler {dates : List Date} {changes : List ℚ}
    (hne : dates ≠ []) (hv : ∀ d ∈ dates, d.Valid)
    (hsorted : List.Sorted dateLt dates) (hlen : changes.length = dates.length) :
    ∃ all_days all_changes,
      fill_no_transact_days dates changes = some (all_days, all_changes)
      ∧ all_days.length
          = (toOrdinal (dates.getLast hne) - toOrdinal (dates.head hne)) + 1
      ∧ all_changes.length = all_days.length
      ∧ List.Chain' (fun a b => b = nextDay a) all_days
      ∧ (∀ dt, dt ∈ all_days ↔ dt.Valid ∧ dateLe (dates.head hne) dt
          ∧ dateLe dt (dates.getLast hne))
      ∧ (∀ j, ∀ hj : j < dates.length, ∃ i, ∃ hi : i < all_days.length,
          all_days[i] = dates[j] ∧ all_changes.getD i 0 = changes.getD j 0)
      ∧ (∀ i, ∀ hi : i < all_days.length,
          all_days[i] ∉ dates → all_changes.getD i 0 = 0) := by
  have hnd : dates.Nodup := nodup_of_sorted_lt hsorted
  have hsle : List.Sorted dateLe dates := hsorted.imp dateLe_of_dateLt
  have hfv : (dates.head hne).Valid := hv _ (List.head_mem hne)
  have hlv : (dates.getLast hne).Valid := hv _ (List.getLast_mem hne)
  have hmin : ∀ x ∈ dates, dateLe (dates.head hne) x := by
    cases dates with
    | nil => exact absurd rfl hne
    | cons a t => exact sorted_head_le hsle
  have hmax : ∀ x ∈ dates, dateLe x (dates.getLast hne) :=
    sorted_le_getLast hsle hne
  have hordle : toOrdinal (dates.head hne) ≤ toOrdinal (dates.getLast hne) :=
    (dateLe_iff_toOrdinal hfv hlv).mp (hmin _ (List.getLast_mem hne))
  refine ⟨fillDays (dates.head hne) (dates.getLast hne),
    (fillDays (dates.head hne) (dates.getLast hne)).map (fun dt =>
      if dt ∈ dates then dictLookup (dates.zip changes) dt else 0),
    fill_eq_of_ne_nil hne changes, ?_, List.length_map _ _,
    fillDays_chain (dates.getLast hne), ?_, ?_, ?_⟩
  · rw [fillDays_length]
    omega
  · intro dt
    rw [mem_fillDays hfv]
    constructor
    · rintro ⟨hdv, h1, h2⟩
      exact ⟨hdv, (dateLe_iff_toOrdinal hfv hdv).mpr h1,
        (dateLe_iff_toOrdinal hdv hlv).mpr h2⟩
    · rintro ⟨hdv, h1, h2⟩
      exact ⟨hdv, (dateLe_iff_toOrdinal hfv hdv).mp h1,
        (dateLe_iff_toOrdinal hdv hlv).mp h2⟩
  · intro j hj
    have hmemj : dates[j] ∈ dates := List.getElem_mem hj
    have hjv : dates[j].Valid := hv _ hmemj
    have hmemfd : dates[j] ∈ fillDays (dates.head hne) (dates.getLast hne) :=
      (mem_fillDays hfv).mpr ⟨hjv,
        (dateLe_iff_toOrdinal hfv hjv).mp (hmin _ hmemj),
        (dateLe_iff_toOrdinal hjv hlv).mp (hmax _ hmemj)⟩
    obtain ⟨i, hi, hie⟩ := List.getElem_of_mem hmemfd
    refine ⟨i, hi, hie, ?_⟩
    rw [getD_map_q hi, hie, if_pos hmemj]
    exact dictLookup_zip hnd hlen hj
      (by rw [List.getD_eq_getElem _ default hj])
  · intro i hi hnotin
    rw [getD_map_q hi, if_neg hnotin]

/-- Witness for claim C3 at dates `[2021-01-01, 2021-01-03]` with changes
`[5, 7]`. -/
theorem claim3_witness :
    ∃ all_days all_changes,
      fill_no_transact_days [⟨2021, 1, 1⟩, ⟨2021, 1, 3⟩] [5, 7]
          = some (all_days, all_changes)
      ∧ all_days.length = (toOrdinal (⟨2021, 1, 3⟩ : Date)
          - toOrdinal (⟨2021, 1, 1⟩ : Date)) + 1
      ∧ all_changes.length = all_days.length
      ∧ List.Chain' (fun a b => b = nextDay a) all_days
      ∧ (∀ dt, dt ∈ all_days ↔ dt.Valid ∧ dateLe ⟨2021, 1, 1⟩ dt
          ∧ dateLe dt ⟨2021, 1, 3⟩)
      ∧ (∀ j, ∀ hj : j < ([⟨2021, 1, 1⟩, ⟨2021, 1, 3⟩] : List Date).length,
          ∃ i, ∃ hi : i < all_days.length,
          all_days[i] = ([⟨2021, 1, 1⟩, ⟨2021, 1, 3⟩] : List Date)[j]
            ∧ all_changes.getD i 0 = ([5, 7] : List ℚ).getD j 0)
      ∧ (∀ i, ∀ hi : i < all_days.length,
          all_days[i] ∉ ([⟨2021, 1, 1⟩, ⟨2021, 1, 3⟩] : List Date)
            → all_changes.getD i 0 = 0) :=
  claim3_gap_filler (by decide) (by decide) (by decide) (by decide)

theorem fillDays_head {first last : Date} (h : toOrdinal first ≤ toOrdinal last) :
    (fillDays first last).head (fillDays_ne_nil h) = first := by
  have hlen : 0 < (fillDays first last).length := by
    rw [fillDays_length]
    omega
  rw [List.head_eq_getElem, fillDays_getElem first last hlen]
  exact addDays_zero first

theorem fill_of_chain {dates : List Date} {changes : List ℚ} (hne : dates ≠ [])
    (hv : (dates.head hne).Valid)
    (hchain : List.Chain' (fun a b => b = nextDay a) dates)
    (hlen : changes.length = dates.length) :
    fill_no_transact_days dates changes = some (dates, changes) := by
  have hfd := chain_nextDay_eq_fillDays hne hv hchain
  have hnd : dates.Nodup := by
    rw [hfd]
    exact fillDays_nodup hv _
  rw [fill_eq_of_ne_nil hne, ← hfd]
  have hmapeq : dates.map (fun dt =>
      if dt ∈ dates then dictLookup (dates.zip changes) dt else 0) = changes := by
    apply List.ext_getElem
    · rw [List.length_map, hlen]
    · intro i h1 h2
      rw [List.length_map] at h1
      rw [List.getElem_map, if_pos (List.getElem_mem h1),
        dictLookup_zip hnd hlen h1 (by rw [List.getD_eq_getElem _ default h1]),
        List.getD_eq_getElem _ 0 h2]
  rw [hmapeq]

/-- Claim C8: `fill_no_transact_days` is idempotent.  First part: applied to an
already gap-free series (non-empty, valid first day, consecutive days stepping
by exactly one) it returns that series unchanged.  Second part: applied twice
to any non-empty, strictly ascending, all-valid input it equals applying it
once. -/
theorem claim8_idempotent :
    (∀ (dates : List Date) (changes : List ℚ) (hne : dates ≠ []),
      (dates.head hne).Valid →
      List.Chain' (fun a b => b = nextDay a) dates →
      changes.length = dates.length →
      fill_no_transact_days dates changes = some (dates, changes))
    ∧ (∀ (dates : List Date) (changes : List ℚ) (hne : dates ≠ []),
      (∀ d ∈ dates, d.Valid) → List.Sorted dateLt dates →
      changes.length = dates.length →
      ∀ p, fill_no_transact_days dates changes = some p →
        fill_no_transact_days p.1 p.2 = some p) := by
  constructor
  · intro dates changes hne hv hchain hlen
    exact fill_of_chain hne hv hchain hlen
  · intro dates changes hne hv hsorted hlen p hfill
    have hfd := fill_eq_of_ne_nil hne changes
    rw [hfill] at hfd
    have hp := Option.some.inj hfd
    have hfv : (dates.head hne).Valid := hv _ (List.head_mem hne)
    have hlv : (dates.getLast hne).Valid := hv _ (List.getLast_mem hne)
    have hsle : List.Sorted dateLe dates := hsorted.imp dateLe_of_dateLt
    have hmin : ∀ x ∈ dates, dateLe (dates.head hne) x := by
      cases dates with
      | nil => exact absurd rfl hne
      | cons a t => exact sorted_head_le hsle
    have hordle : toOrdinal (dates.head hne) ≤ toOrdinal (dates.getLast hne) :=
      (dateLe_iff_toOrdinal hfv hlv).mp (hmin _ (List.getLast_mem hne))
    rw [hp]
    apply fill_of_chain (fillDays_ne_nil hordle)
    · rw [fillDays_head hordle]
      exact hfv
    · exact fillDays_chain _
    · exact List.length_map _ _

/-- Witness for claim C8: the gap-free series `[2021-01-01, 2021-01-02]` with
changes `[5, 7]` is returned unchanged. -/
theorem claim8_witness :
    fill_no_transact_days [⟨2021, 1, 1⟩, ⟨2021, 1, 2⟩] [5, 7]
      = some ([⟨2021, 1, 1⟩, ⟨2021, 1, 2⟩], [5, 7]) :=
  claim8_idempotent.1 [⟨2021, 1, 1⟩, ⟨2021, 1, 2⟩] [5, 7] (by decide)
    (by decide)
    (List.chain'_cons.mpr ⟨by decide, List.chain'_singleton _⟩)
    (by decide)

theorem account_first_balance {dates : List Date} (changes : List ℚ) (init : ℚ)
    (hinit : IsCent init) (hne : dates ≠ []) (hv : ∀ d ∈ dates, d.Valid) :
    (convert_changes_to_balances
        (init - accountDailyChangeFun dates changes (sortedUniqueDates dates).headI)
        ((accountFillDays dates).map (accountDailyChangeFun dates changes))).getD 0 0
      = init := by
  have hordle := sud_ord_le hne hv
  obtain ⟨d0, t0, hfd⟩ : ∃ d0 t0, accountFillDays dates = d0 :: t0 := by
    cases hfd : accountFillDays dates with
    | nil => exact absurd hfd (accountFillDays_ne_nil hne hv)
    | cons a t => exact ⟨a, t, rfl⟩
  have hd0 : d0 = (sortedUniqueDates dates).headI := by
    have h1 : (accountFillDays dates).headI = d0 := by
      rw [hfd]
      rfl
    have h2 : (accountFillDays dates).headI = (sortedUniqueDates dates).headI := by
      unfold accountFillDays
      rw [headI_eq_head (fillDays_ne_nil hordle), fillDays_head hordle]
    exact h1.symm.trans h2
  rw [hfd, hd0]
  rw [convert_getD _ _ (by simp)]
  have htake : ((((sortedUniqueDates dates).headI :: t0).map
      (accountDailyChangeFun dates changes)).take 1).sum
      = accountDailyChangeFun dates changes (sortedUniqueDates dates).headI := by
    simp
  rw [htake, sub_add_cancel, round2_of_isCent hinit]

/-- Claim C5: for each account, the constructor's balance accumulation starts
from (caller-supplied initial balance - total collapsed change on the earliest
transaction date), and consequently the daily balance reported on the first
date of the filled series equals the caller-supplied initial balance (the
initial balances are whole-cent amounts, as the entry form enforces). -/
theorem claim5_initial_adjustment (ic isv : ℚ) (hic : IsCent ic)
    (his : IsCent isv) (cd : List Date) (cc : List ℚ) (sd : List Date)
    (sc : List ℚ) (hcne : cd ≠ []) (hsne : sd ≠ [])
    (hcv : ∀ d ∈ cd, d.Valid) (hsv : ∀ d ∈ sd, d.Valid) :
    ∃ h, mkBankingHistory ic isv cd cc sd sc = some h
      ∧ (∃ dmin, dmin ∈ cd ∧ (∀ d ∈ cd, dateLe dmin d)
          ∧ h.initial_cheq_balance = ic - round2 (changeOn (cd.zip cc) dmin)
          ∧ h.cheq_daily_balances.getD 0 0 = ic)
      ∧ (∃ dmin, dmin ∈ sd ∧ (∀ d ∈ sd, dateLe dmin d)
          ∧ h.initial_save_balance = isv - round2 (changeOn (sd.zip sc) dmin)
          ∧ h.save_daily_balances.getD 0 0 = isv) := by
  refine ⟨bankingHistorySpec ic isv cd cc sd sc,
    mkBankingHistory_eq ic isv cd cc sd sc hcne hsne hcv hsv, ?_, ?_⟩
  · refine ⟨(sortedUniqueDates cd).headI,
      mem_sortedUniqueDates.mp (headI_mem (sortedUniqueDates_ne_nil hcne)),
      ?_, rfl, ?_⟩
    · intro d hd
      exact sorted_headI_le (sortedUniqueDates_sorted cd)
        (sortedUniqueDates_ne_nil hcne) d (mem_sortedUniqueDates.mpr hd)
    · exact account_first_balance cc ic hic hcne hcv
  · refine ⟨(sortedUniqueDates sd).headI,
      mem_sortedUniqueDates.mp (headI_mem (sortedUniqueDates_ne_nil hsne)),
      ?_, rfl, ?_⟩
    · intro d hd
      exact sorted_headI_le (sortedUniqueDates_sorted sd)
        (sortedUniqueDates_ne_nil hsne) d (mem_sortedUniqueDates.mpr hd)
    · exact account_first_balance sc isv his hsne hsv

/-- Witness for claim C5 at the spec example: chequing initial `500` with one
transaction day, saving initial `100`. -/
theorem claim5_witness :
    ∃ h, mkBankingHistory 500 100 [⟨2021, 1, 1⟩] [480] [⟨2021, 1, 2⟩] [50] = some h
      ∧ (∃ dmin, dmin ∈ [(⟨2021, 1, 1⟩ : Date)]
          ∧ (∀ d ∈ [(⟨2021, 1, 1⟩ : Date)], dateLe dmin d)
          ∧ h.initial_cheq_balance
              = 500 - round2 (changeOn ([(⟨2021, 1, 1⟩ : Date)].zip [480]) dmin)
          ∧ h.cheq_daily_balances.getD 0 0 = 500)
      ∧ (∃ dmin, dmin ∈ [(⟨2021, 1, 2⟩ : Date)]
          ∧ (∀ d ∈ [(⟨2021, 1, 2⟩ : Date)], dateLe dmin d)
          ∧ h.initial_save_balance
              = 100 - round2 (changeOn ([(⟨2021, 1, 2⟩ : Date)].zip [50]) dmin)
          ∧ h.save_daily_balances.getD 0 0 = 100) :=
  claim5_initial_adjustment 500 100 ⟨50000, by norm_num⟩ ⟨10000, by norm_num⟩
    [⟨2021, 1, 1⟩] [480] [⟨2021, 1, 2⟩] [50] (by decide) (by decide)
    (by decide) (by decide)

theorem zip3_map_fst (dates : List Date) (changes balances : List ℚ)
    (hc : changes.length = dates.length) (hb : balances.length = dates.length) :
    (dates.zip (changes.zip balances)).map Prod.fst = dates := by
  apply List.map_fst_zip
  rw [List.length_zip, hc, hb, min_self]

theorem monthly_months_eq (dates : List Date) (changes balances : List ℚ)
    (hc : changes.length = dates.length) (hb : balances.length = dates.length) :
    (get_monthly_change_balance dates changes balances).1
      = sortedUniqueDates (dates.map monthStart) := by
  show List.insertionSort dateLe
      (((dates.zip (changes.zip balances)).map
        (fun t => (monthStart t.1, t.2))).map Prod.fst).dedup
    = List.insertionSort dateLe (dates.map monthStart).dedup
  congr 1
  rw [List.map_map]
  have h1 : (Prod.fst ∘ fun t : Date × ℚ × ℚ => (monthStart t.1, t.2))
      = monthStart ∘ Prod.fst := rfl
  rw [h1, ← List.map_map, zip3_map_fst dates changes balances hc hb]

theorem zip3_mem_fst {dates : List Date} {changes balances : List ℚ}
    {t : Date × ℚ × ℚ} (ht : t ∈ dates.zip (changes.zip balances)) :
    t.1 ∈ dates := by
  obtain ⟨a, b⟩ := t
  exact (List.of_mem_zip ht).1

theorem monthly_balances_fun (dates : List Date) (changes balances : List ℚ) :
    (get_monthly_change_balance dates changes balances).2.2
      = (get_monthly_change_balance dates changes balances).1.map (fun my =>
          match ((dates.zip (changes.zip balances)).filter
              (fun t => decide (t.1 = my))).head? with
          | some t => t.2.2
          | none => ((dates.zip (changes.zip balances)).headI).2.2) := rfl

theorem monthly_balance_absent {dates : List Date} {changes balances : List ℚ}
    (hne : dates ≠ []) (hc : changes.length = dates.length)
    (hb : balances.length = dates.length) {my : Date} (habs : my ∉ dates) :
    (match ((dates.zip (changes.zip balances)).filter
        (fun t => decide (t.1 = my))).head? with
      | some t => t.2.2
      | none => ((dates.zip (changes.zip balances)).headI).2.2)
      = balances.getD 0 0 := by
  have hfil : (dates.zip (changes.zip balances)).filter
      (fun t => decide (t.1 = my)) = [] := by
    rw [List.filter_eq_nil_iff]
    intro t ht
    simp only [decide_eq_true_eq]
    intro he
    exact habs (he ▸ zip3_mem_fst ht)
  rw [hfil]
  cases dates with
  | nil => exact absurd rfl hne
  | cons d dt =>
    cases changes with
    | nil => simp at hc
    | cons c ct =>
      cases balances with
      | nil => simp at hb
      | cons b bt => rfl

/-- Claim C9: in `get_monthly_change_balance`, whenever a month occurring in
the input has its month-start date (the 1st of that month) absent from the
input dates — not only when it predates the input range — the reported
start-of-month balance is the balance of the very first entry of the whole
input series. -/
theorem claim9_absent_month_start (dates : List Date) (changes balances : List ℚ)
    (hne : dates ≠ []) (hc : changes.length = dates.length)
    (hb : balances.length = dates.length) (my : Date)
    (hmem : my ∈ dates.map monthStart) (habs : my ∉ dates) :
    my ∈ (get_monthly_change_balance dates changes balances).1
    ∧ ∀ i, ∀ hi : i < (get_monthly_change_balance dates changes balances).1.length,
        (get_monthly_change_balance dates changes balances).1[i] = my →
        (get_monthly_change_balance dates changes balances).2.2.getD i 0
          = balances.getD 0 0 := by
  constructor
  · rw [monthly_months_eq dates changes balances hc hb]
    exact mem_sortedUniqueDates.mpr hmem
  · intro i hi hieq
    rw [monthly_balances_fun dates changes balances, getD_map_q hi, hieq]
    exact monthly_balance_absent hne hc hb habs

/-- Witness for claim C9: single transaction on 2020-06-15; the June row
reports the first (and only) entry's balance for month start 2020-06-01,
which is absent from the input. -/
theorem claim9_witness :
    (⟨2020, 6, 1⟩ : Date) ∈ (get_monthly_change_balance [⟨2020, 6, 15⟩] [3] [100]).1
    ∧ ∀ i, ∀ hi : i < (get_monthly_change_balance [⟨2020, 6, 15⟩] [3] [100]).1.length,
        (get_monthly_change_balance [⟨2020, 6, 15⟩] [3] [100]).1[i] = ⟨2020, 6, 1⟩ →
        (get_monthly_change_balance [⟨2020, 6, 15⟩] [3] [100]).2.2.getD i 0
          = ([100] : List ℚ).getD 0 0 :=
  claim9_absent_month_start [⟨2020, 6, 15⟩] [3] [100] (by decide) (by decide)
    (by decide) ⟨2020, 6, 1⟩ (by decide) (by decide)

theorem dateLe_or_lt (a b : Date) : dateLe a b ∨ dateLt b a := by
  obtain ⟨ay, am, ad⟩ := a
  obtain ⟨cy, cm, cd⟩ := b
  simp only [dateLe, dateLt]
  omega

theorem monthStart_valid {dt : Date} (h : dt.Valid) : (monthStart dt).Valid := by
  obtain ⟨h1, h2, h3, h4, h5⟩ := h
  exact ⟨h1, h2, h3, le_refl 1, daysInMonth_pos _ _⟩

theorem monthStart_le {dt : Date} (h : dt.Valid) : dateLe (monthStart dt) dt := by
  obtain ⟨h1, h2, h3, h4, h5⟩ := h
  unfold monthStart dateLe
  right
  exact ⟨rfl, Or.inr ⟨rfl, h4⟩⟩

theorem monthly_changes_fun (dates : List Date) (changes balances : List ℚ) :
    (get_monthly_change_balance dates changes balances).2.1
      = (get_monthly_change_balance dates changes balances).1.map (fun my =>
          round2 (((((dates.zip (changes.zip balances)).map
              (fun t => (monthStart t.1, t.2))).filter
            (fun t => decide (t.1 = my))).map (fun t => t.2.1)).sum)) := rfl

theorem zip3_month_changes (my : Date) : ∀ (dates : List Date)
    (changes balances : List ℚ), changes.length = dates.length →
    balances.length = dates.length →
    ((((dates.zip (changes.zip balances)).map
        (fun t => (monthStart t.1, t.2))).filter
      (fun t => decide (t.1 = my))).map (fun t => t.2.1))
      = ((dates.zip changes).filter
          (fun p => decide (monthStart p.1 = my))).map Prod.snd := by
  intro dates
  induction dates with
  | nil => intro changes balances _ _; rfl
  | cons d dt ih =>
    intro changes balances hc hb
    cases changes with
    | nil => simp at hc
    | cons c ct =>
      cases balances with
      | nil => simp at hb
      | cons b bt =>
        have hc2 : ct.length = dt.length := by simpa using hc
        have hb2 : bt.length = dt.length := by simpa using hb
        rw [List.zip_cons_cons, List.zip_cons_cons, List.zip_cons_cons,
          List.map_cons, List.filter_cons, List.filter_cons]
        by_cases h : monthStart d = my
        · rw [if_pos (by simpa using h), if_pos (by simpa using h),
            List.map_cons, List.map_cons, ih ct bt hc2 hb2]
        · rw [if_neg (by simpa using h), if_neg (by simpa using h),
            ih ct bt hc2 hb2]

theorem zip3_head_filter {my : Date} : ∀ {dates : List Date}
    {changes balances : List ℚ}, dates.Nodup → changes.length = dates.length →
    balances.length = dates.length → ∀ {j}, j < dates.length →
    dates.getD j default = my →
    ((dates.zip (changes.zip balances)).filter
        (fun t => decide (t.1 = my))).head?
      = some (my, changes.getD j 0, balances.getD j 0) := by
  intro dates
  induction dates with
  | nil =>
    intro changes balances _ _ _ j hj
    simp at hj
  | cons d dt ih =>
    intro changes balances hnd hc hb j hj hdj
    cases changes with
    | nil => simp at hc
    | cons c ct =>
      cases balances with
      | nil => simp at hb
      | cons b bt =>
        have hc2 : ct.length = dt.length := by simpa using hc
        have hb2 : bt.length = dt.length := by simpa using hb
        rw [List.zip_cons_cons, List.zip_cons_cons, List.filter_cons]
        cases j with
        | zero =>
          rw [List.getD_cons_zero] at hdj
          rw [if_pos (by simpa using hdj)]
          rw [List.head?_cons, List.getD_cons_zero, List.getD_cons_zero, hdj]
        | succ k =>
          have hkt : k < dt.length := by simpa using hj
          rw [List.getD_cons_succ] at hdj
          have hmem : my ∈ dt := by
            rw [← hdj]
            exact getD_mem_of_lt hkt default
          have hdne : ¬ ((d, (c, b)).1 = my) := by
            intro hae
            have hae2 : d = my := hae
            rw [← hae2] at hmem
            exact (List.nodup_cons.mp hnd).1 hmem
          rw [if_neg (by simpa using hdne), List.getD_cons_succ,
            List.getD_cons_succ]
          exact ih (List.nodup_cons.mp hnd).2 hc2 hb2 hkt hdj

theorem dateLt_not_dateLe {a b : Date} (h : dateLt a b) : ¬ dateLe b a := by
  obtain ⟨ay, am, ad⟩ := a
  obtain ⟨cy, cm, cd⟩ := b
  simp only [dateLe, dateLt] at *
  omega

/-- Claim C4: on a gap-filled daily (date, change, balance) series,
`get_monthly_change_balance` produces one row per distinct month present,
chronologically ordered with the day fixed to 1; each row's net change is the
rounded sum of that month's daily changes, and each row's start-of-month
balance is the daily balance recorded on the month's first calendar day when
that day lies in the input range, falling back to the very first entry's
balance when the month's first day predates the start of the range (and every
month of a gap-filled series is in one of these two cases). -/
theorem claim4_monthly_aggregator {dates : List Date} {changes balances : List ℚ}
    (hne : dates ≠ []) (hv : ∀ d ∈ dates, d.Valid)
    (hchain : List.Chain' (fun a b => b = nextDay a) dates)
    (hc : changes.length = dates.length) (hb : balances.length = dates.length) :
    ∀ ms mcs mbs,
      get_monthly_change_balance dates changes balances = (ms, mcs, mbs) →
      List.Sorted dateLt ms
      ∧ (∀ my, my ∈ ms ↔ my ∈ dates.map monthStart)
      ∧ (∀ my ∈ ms, my.d = 1)
      ∧ mcs.length = ms.length
      ∧ mbs.length = ms.length
      ∧ (∀ i, ∀ hi : i < ms.length, mcs.getD i 0
          = round2 ((((dates.zip changes).filter
              (fun p => decide (monthStart p.1 = ms[i]))).map Prod.snd).sum))
      ∧ (∀ i, ∀ hi : i < ms.length,
          (ms[i] ∈ dates → mbs.getD i 0 = seriesAt dates balances ms[i])
          ∧ (dateLt ms[i] (dates.head hne) → mbs.getD i 0 = balances.getD 0 0)
          ∧ (ms[i] ∈ dates ∨ dateLt ms[i] (dates.head hne))) := by
  intro ms mcs mbs hM
  have hms : (get_monthly_change_balance dates changes balances).1 = ms := by
    rw [hM]
  have hmcs : (get_monthly_change_balance dates changes balances).2.1 = mcs := by
    rw [hM]
  have hmbs : (get_monthly_change_balance dates changes balances).2.2 = mbs := by
    rw [hM]
  have hmseq : ms = sortedUniqueDates (dates.map monthStart) := by
    rw [← hms, monthly_months_eq dates changes balances hc hb]
  have hfv : (dates.head hne).Valid := hv _ (List.head_mem hne)
  have hlv : (dates.getLast hne).Valid := hv _ (List.getLast_mem hne)
  have hfd := chain_nextDay_eq_fillDays hne hfv hchain
  have hnd : dates.Nodup := by
    rw [hfd]
    exact fillDays_nodup hfv _
  have hmin : ∀ x ∈ dates, dateLe (dates.head hne) x := by
    intro x hx
    rw [hfd] at hx
    have := (mem_fillDays hfv).mp hx
    exact (dateLe_iff_toOrdinal hfv this.1).mpr this.2.1
  have hmax : ∀ x ∈ dates, dateLe x (dates.getLast hne) := by
    intro x hx
    rw [hfd] at hx
    have := (mem_fillDays hfv).mp hx
    exact (dateLe_iff_toOrdinal this.1 hlv).mpr this.2.2
  have hmemms : ∀ my, my ∈ ms ↔ my ∈ dates.map monthStart := by
    intro my
    rw [hmseq]
    exact mem_sortedUniqueDates
  refine ⟨?_, hmemms, ?_, ?_, ?_, ?_, ?_⟩
  · rw [hmseq]
    exact sorted_lt_of_sorted_nodup (sortedUniqueDates_sorted _)
      (sortedUniqueDates_nodup _)
  · intro my hmy
    obtain ⟨dt0, _, hdt0⟩ := List.mem_map.mp ((hmemms my).mp hmy)
    rw [← hdt0]
    rfl
  · rw [← hmcs, ← hms, monthly_changes_fun]
    exact List.length_map _ _
  · rw [← hmbs, ← hms, monthly_balances_fun]
    exact List.length_map _ _
  · intro i hi
    have hi2 : i < (get_monthly_change_balance dates changes balances).1.length := by
      rw [hms]
      exact hi
    rw [← hmcs, monthly_changes_fun, getD_map_q hi2]
    simp only [hms]
    rw [zip3_month_changes ms[i] dates changes balances hc hb]
  · intro i hi
    have hi2 : i < (get_monthly_change_balance dates changes balances).1.length := by
      rw [hms]
      exact hi
    have hval : mbs.getD i 0
        = (match ((dates.zip (changes.zip balances)).filter
            (fun t => decide (t.1 = ms[i]))).head? with
          | some t => t.2.2
          | none => ((dates.zip (changes.zip balances)).headI).2.2) := by
      rw [← hmbs, monthly_balances_fun, getD_map_q hi2]
      simp only [hms]
    refine ⟨?_, ?_, ?_⟩
    · intro hmem
      obtain ⟨j, hj, hje⟩ := List.getElem_of_mem hmem
      have hgdj : dates.getD j default = ms[i] := by
        rw [List.getD_eq_getElem _ default hj, hje]
      rw [hval, zip3_head_filter hnd hc hb hj hgdj]
      exact (changeOn_zip_getD hnd hb hj hgdj).symm
    · intro hlt
      have habs : ms[i] ∉ dates := by
        intro hmem
        exact dateLt_not_dateLe hlt (hmin _ hmem)
      rw [hval]
      exact monthly_balance_absent hne hc hb habs
    · rcases dateLe_or_lt (dates.head hne) ms[i] with hle | hlt
      · left
        have hmi : ms[i] ∈ ms := List.getElem_mem hi
        obtain ⟨dt0, hdt0m, hdt0⟩ := List.mem_map.mp ((hmemms _).mp hmi)
        have hdt0v : dt0.Valid := hv _ hdt0m
        have hmyv : ms[i].Valid := hdt0 ▸ monthStart_valid hdt0v
        have h1 : toOrdinal (dates.head hne) ≤ toOrdinal ms[i] :=
          (dateLe_iff_toOrdinal hfv hmyv).mp hle
        have h2 : toOrdinal ms[i] ≤ toOrdinal dt0 :=
          (dateLe_iff_toOrdinal hmyv hdt0v).mp (hdt0 ▸ monthStart_le hdt0v)
        have h3 : toOrdinal dt0 ≤ toOrdinal (dates.getLast hne) :=
          (dateLe_iff_toOrdinal hdt0v hlv).mp (hmax _ hdt0m)
        rw [hfd]
        exact (mem_fillDays hfv).mpr ⟨hmyv, h1, by omega⟩
      · exact Or.inr hlt

/-- Witness for claim C4 on the three-day gap-filled series
2020-12-31 .. 2021-01-02, instantiated at the computed monthly triple. -/
theorem claim4_witness :
    List.Sorted dateLt (get_monthly_change_balance
      [⟨2020, 12, 31⟩, ⟨2021, 1, 1⟩, ⟨2021, 1, 2⟩] [1, 2, 3] [10, 12, 15]).1
    ∧ (∀ my, my ∈ (get_monthly_change_balance
          [⟨2020, 12, 31⟩, ⟨2021, 1, 1⟩, ⟨2021, 1, 2⟩] [1, 2, 3] [10, 12, 15]).1
        ↔ my ∈ ([⟨2020, 12, 31⟩, ⟨2021, 1, 1⟩,
            ⟨2021, 1, 2⟩] : List Date).map monthStart)
    ∧ (∀ my ∈ (get_monthly_change_balance
        [⟨2020, 12, 31⟩, ⟨2021, 1, 1⟩, ⟨2021, 1, 2⟩] [1, 2, 3] [10, 12, 15]).1,
        my.d = 1)
    ∧ (get_monthly_change_balance [⟨2020, 12, 31⟩, ⟨2021, 1, 1⟩, ⟨2021, 1, 2⟩]
        [1, 2, 3] [10, 12, 15]).2.1.length
      = (get_monthly_change_balance [⟨2020, 12, 31⟩, ⟨2021, 1, 1⟩, ⟨2021, 1, 2⟩]
        [1, 2, 3] [10, 12, 15]).1.length
    ∧ (get_monthly_change_balance [⟨2020, 12, 31⟩, ⟨2021, 1, 1⟩, ⟨2021, 1, 2⟩]
        [1, 2, 3] [10, 12, 15]).2.2.length
      = (get_monthly_change_balance [⟨2020, 12, 31⟩, ⟨2021, 1, 1⟩, ⟨2021, 1, 2⟩]
        [1, 2, 3] [10, 12, 15]).1.length
    ∧ (∀ i, ∀ hi : i < (get_monthly_change_balance
        [⟨2020, 12, 31⟩, ⟨2021, 1, 1⟩, ⟨2021, 1, 2⟩]
        [1, 2, 3] [10, 12, 15]).1.length,
        (get_monthly_change_balance [⟨2020, 12, 31⟩, ⟨2021, 1, 1⟩, ⟨2021, 1, 2⟩]
          [1, 2, 3] [10, 12, 15]).2.1.getD i 0
          = round2 (((([⟨2020, 12, 31⟩, ⟨2021, 1, 1⟩, ⟨2021, 1, 2⟩].zip
              ([1, 2, 3] : List ℚ)).filter
              (fun p => decide (monthStart p.1 = (get_monthly_change_balance
                [⟨2020, 12, 31⟩, ⟨2021, 1, 1⟩, ⟨2021, 1, 2⟩]
                [1, 2, 3] [10, 12, 15]).1[i]))).map Prod.snd).sum))
    ∧ (∀ i, ∀ hi : i < (get_monthly_change_balance
        [⟨2020, 12, 31⟩, ⟨2021, 1, 1⟩, ⟨2021, 1, 2⟩]
        [1, 2, 3] [10, 12, 15]).1.length,
        ((get_monthly_change_balance [⟨2020, 12, 31⟩, ⟨2021, 1, 1⟩,
            ⟨2021, 1, 2⟩] [1, 2, 3] [10, 12, 15]).1[i]
            ∈ ([⟨2020, 12, 31⟩, ⟨2021, 1, 1⟩, ⟨2021, 1, 2⟩] : List Date) →
          (get_monthly_change_balance [⟨2020, 12, 31⟩, ⟨2021, 1, 1⟩,
            ⟨2021, 1, 2⟩] [1, 2, 3] [10, 12, 15]).2.2.getD i 0
            = seriesAt [⟨2020, 12, 31⟩, ⟨2021, 1, 1⟩, ⟨2021, 1, 2⟩]
              [10, 12, 15] (get_monthly_change_balance [⟨2020, 12, 31⟩,
                ⟨2021, 1, 1⟩, ⟨2021, 1, 2⟩] [1, 2, 3] [10, 12, 15]).1[i])
        ∧ (dateLt (get_monthly_change_balance [⟨2020, 12, 31⟩, ⟨2021, 1, 1⟩,
            ⟨2021, 1, 2⟩] [1, 2, 3] [10, 12, 15]).1[i]
            (([⟨2020, 12, 31⟩, ⟨2021, 1, 1⟩,
              ⟨2021, 1, 2⟩] : List Date).head (by decide)) →
          (get_monthly_change_balance [⟨2020, 12, 31⟩, ⟨2021, 1, 1⟩,
            ⟨2021, 1, 2⟩] [1, 2, 3] [10, 12, 15]).2.2.getD i 0
            = ([10, 12, 15] : List ℚ).getD 0 0)
        ∧ ((get_monthly_change_balance [⟨2020, 12, 31⟩, ⟨2021, 1, 1⟩,
            ⟨2021, 1, 2⟩] [1, 2, 3] [10, 12, 15]).1[i]
              ∈ ([⟨2020, 12, 31⟩, ⟨2021, 1, 1⟩, ⟨2021, 1, 2⟩] : List Date)
          ∨ dateLt (get_monthly_change_balance [⟨2020, 12, 31⟩, ⟨2021, 1, 1⟩,
              ⟨2021, 1, 2⟩] [1, 2, 3] [10, 12, 15]).1[i]
            (([⟨2020, 12, 31⟩, ⟨2021, 1, 1⟩,
              ⟨2021, 1, 2⟩] : List Date).head (by decide)))) :=
  claim4_monthly_aggregator (by decide) (by decide)
    (List.chain'_cons.mpr ⟨by decide,
      List.chain'_cons.mpr ⟨by decide, List.chain'_singleton _⟩⟩)
    (by decide) (by decide)
    (get_monthly_change_balance [⟨2020, 12, 31⟩, ⟨2021, 1, 1⟩, ⟨2021, 1, 2⟩]
      [1, 2, 3] [10, 12, 15]).1
    (get_monthly_change_balance [⟨2020, 12, 31⟩, ⟨2021, 1, 1⟩, ⟨2021, 1, 2⟩]
      [1, 2, 3] [10, 12, 15]).2.1
    (get_monthly_change_balance [⟨2020, 12, 31⟩, ⟨2021, 1, 1⟩, ⟨2021, 1, 2⟩]
      [1, 2, 3] [10, 12, 15]).2.2
    rfl

theorem isCent_adcf (dates : List Date) (changes : List ℚ) (dt : Date) :
    IsCent (accountDailyChangeFun dates changes dt) :=
  isCent_round2 _

theorem adcf_concat (dC dS : List Date) (gC gS : Date → ℚ)
    (hndC : dC.Nodup) (hndS : dS.Nodup) (hcentC : ∀ d, IsCent (gC d))
    (hcentS : ∀ d, IsCent (gS d)) (d : Date) :
    accountDailyChangeFun (dC ++ dS) (dC.map gC ++ dS.map gS) d
      = (if d ∈ dC then gC d else 0) + (if d ∈ dS then gS d else 0) := by
  unfold accountDailyChangeFun
  rw [List.zip_append (by rw [List.length_map]), changeOn_append,
    changeOn_zip_map hndC, changeOn_zip_map hndS]
  apply round2_of_isCent
  apply isCent_add <;> split_ifs <;>
    first
    | exact hcentC _
    | exact hcentS _
    | exact isCent_zero

theorem sum_shift_account {hB hC lC : Date} (hvB : hB.Valid) (hvC : hC.Valid)
    (g : Date → ℚ) {dt : Date}
    (hBC : toOrdinal hB ≤ toOrdinal hC) (hCdt : toOrdinal hC ≤ toOrdinal dt)
    (hdtl : toOrdinal dt ≤ toOrdinal lC) :
    ∑ j ∈ Finset.range (toOrdinal dt - toOrdinal hB + 1),
        (if addDays j hB ∈ fillDays hC lC then g (addDays j hB) else 0)
      = ∑ k ∈ Finset.range (toOrdinal dt - toOrdinal hC + 1),
          g (addDays k hC) := by
  set D := toOrdinal hC - toOrdinal hB with hD
  set n := toOrdinal dt - toOrdinal hC + 1 with hn
  have hsplit : toOrdinal dt - toOrdinal hB + 1 = D + n := by omega
  conv_lhs => rw [hsplit, Finset.range_eq_Ico,
    ← Finset.sum_Ico_consecutive _ (Nat.zero_le D) (Nat.le_add_right D n)]
  have hzero : ∑ j ∈ Finset.Ico 0 D,
      (if addDays j hB ∈ fillDays hC lC then g (addDays j hB) else 0) = 0 := by
    apply Finset.sum_eq_zero
    intro j hj
    rw [Finset.mem_Ico] at hj
    rw [if_neg]
    intro hmem
    have := (mem_fillDays hvC).mp hmem
    rw [toOrdinal_addDays hvB] at this
    omega
  rw [hzero, zero_add, Finset.sum_Ico_eq_sum_range]
  have hDn : D + n - D = n := by omega
  rw [hDn]
  apply Finset.sum_congr rfl
  intro i hi
  rw [Finset.mem_range] at hi
  have heq : addDays (D + i) hB = addDays i hC := by
    apply toOrdinal_inj (valid_addDays hvB _) (valid_addDays hvC _)
    rw [toOrdinal_addDays hvB, toOrdinal_addDays hvC]
    omega
  rw [heq, if_pos]
  exact (mem_fillDays hvC).mpr ⟨valid_addDays hvC i, by
    rw [toOrdinal_addDays hvC]; omega, by
    rw [toOrdinal_addDays hvC]; omega⟩

theorem combined_balance_eq (hC lC hS lS hB lB : Date) (gC gS : Date → ℚ)
    (icb isb : ℚ) (hvC : hC.Valid) (hvS : hS.Valid) (hvB : hB.Valid)
    (hcentC : ∀ d, IsCent (gC d)) (hcentS : ∀ d, IsCent (gS d))
    (hicb : IsCent icb) (hisb : IsCent isb) {dt : Date}
    (hdtC : dt ∈ fillDays hC lC) (hdtS : dt ∈ fillDays hS lS)
    (hdtB : dt ∈ fillDays hB lB)
    (hBC : toOrdinal hB ≤ toOrdinal hC) (hBS : toOrdinal hB ≤ toOrdinal hS) :
    seriesAt (fillDays hB lB) (convert_changes_to_balances (icb + isb)
        ((fillDays hB lB).map (accountDailyChangeFun
          (fillDays hC lC ++ fillDays hS lS)
          ((fillDays hC lC).map gC ++ (fillDays hS lS).map gS)))) dt
      = seriesAt (fillDays hC lC) (convert_changes_to_balances icb
          ((fillDays hC lC).map gC)) dt
        + seriesAt (fillDays hS lS) (convert_changes_to_balances isb
            ((fillDays hS lS).map gS)) dt := by
  obtain ⟨hdtv, hCdt, hdtlC⟩ := (mem_fillDays hvC).mp hdtC
  obtain ⟨_, hSdt, hdtlS⟩ := (mem_fillDays hvS).mp hdtS
  rw [seriesAt_convert hvB _ _ hdtB, seriesAt_convert hvC gC icb hdtC,
    seriesAt_convert hvS gS isb hdtS]
  rw [Finset.sum_congr rfl (fun j _ => adcf_concat (fillDays hC lC)
    (fillDays hS lS) gC gS (fillDays_nodup hvC _) (fillDays_nodup hvS _)
    hcentC hcentS (addDays j hB))]
  rw [Finset.sum_add_distrib]
  rw [sum_shift_account hvB hvC gC hBC hCdt hdtlC,
    sum_shift_account hvB hvS gS hBS hSdt hdtlS]
  have hSC : IsCent (∑ k ∈ Finset.range (toOrdinal dt - toOrdinal hC + 1),
      gC (addDays k hC)) := isCent_finsetSum (fun i _ => hcentC _)
  have hSS : IsCent (∑ k ∈ Finset.range (toOrdinal dt - toOrdinal hS + 1),
      gS (addDays k hS)) := isCent_finsetSum (fun i _ => hcentS _)
  rw [round2_of_isCent (isCent_add (isCent_add hicb hisb) (isCent_add hSC hSS)),
    round2_of_isCent (isCent_add hicb hSC),
    round2_of_isCent (isCent_add hisb hSS)]
  ring

/-- Field equations of the closed form `bankingHistorySpec`. -/
theorem bhs_fields (ic isv : ℚ) (cd : List Date) (cc : List ℚ) (sd : List Date)
    (sc : List ℚ) :
    (bankingHistorySpec ic isv cd cc sd sc).initial_cheq_balance
        = ic - accountDailyChangeFun cd cc (sortedUniqueDates cd).headI
    ∧ (bankingHistorySpec ic isv cd cc sd sc).initial_save_balance
        = isv - accountDailyChangeFun sd sc (sortedUniqueDates sd).headI
    ∧ (bankingHistorySpec ic isv cd cc sd sc).initial_bank_balance
        = (ic - accountDailyChangeFun cd cc (sortedUniqueDates cd).headI)
          + (isv - accountDailyChangeFun sd sc (sortedUniqueDates sd).headI)
    ∧ (bankingHistorySpec ic isv cd cc sd sc).cheq_days = accountFillDays cd
    ∧ (bankingHistorySpec ic isv cd cc sd sc).cheq_daily_changes
        = (accountFillDays cd).map (accountDailyChangeFun cd cc)
    ∧ (bankingHistorySpec ic isv cd cc sd sc).cheq_daily_balances
        = convert_changes_to_balances
            (ic - accountDailyChangeFun cd cc (sortedUniqueDates cd).headI)
            ((accountFillDays cd).map (accountDailyChangeFun cd cc))
    ∧ (bankingHistorySpec ic isv cd cc sd sc).save_days = accountFillDays sd
    ∧ (bankingHistorySpec ic isv cd cc sd sc).save_daily_changes
        = (accountFillDays sd).map (accountDailyChangeFun sd sc)
    ∧ (bankingHistorySpec ic isv cd cc sd sc).save_daily_balances
        = convert_changes_to_balances
            (isv - accountDailyChangeFun sd sc (sortedUniqueDates sd).headI)
            ((accountFillDays sd).map (accountDailyChangeFun sd sc))
    ∧ (bankingHistorySpec ic isv cd cc sd sc).bank_days
        = accountFillDays (accountFillDays cd ++ accountFillDays sd)
    ∧ (bankingHistorySpec ic isv cd cc sd sc).bank_daily_changes
        = (accountFillDays (accountFillDays cd ++ accountFillDays sd)).map
            (accountDailyChangeFun (accountFillDays cd ++ accountFillDays sd)
              ((accountFillDays cd).map (accountDailyChangeFun cd cc)
                ++ (accountFillDays sd).map (accountDailyChangeFun sd sc)))
    ∧ (bankingHistorySpec ic isv cd cc sd sc).bank_daily_balances
        = convert_changes_to_balances
            ((ic - accountDailyChangeFun cd cc (sortedUniqueDates cd).headI)
              + (isv - accountDailyChangeFun sd sc (sortedUniqueDates sd).headI))
            ((accountFillDays (accountFillDays cd ++ accountFillDays sd)).map
              (accountDailyChangeFun (accountFillDays cd ++ accountFillDays sd)
                ((accountFillDays cd).map (accountDailyChangeFun cd cc)
                  ++ (accountFillDays sd).map (accountDailyChangeFun sd sc)))) :=
  ⟨rfl, rfl, rfl, rfl, rfl, rfl, rfl, rfl, rfl, rfl, rfl, rfl⟩

theorem accountFillDays_def (dates : List Date) :
    accountFillDays dates = fillDays (sortedUniqueDates dates).headI
      (sortedUniqueDates dates).getLastI := rfl

/-- Claim C1, counterexample: chequing [(2021-01-01, 480)] with initial
balance 500 and saving [(2021-01-02, 50)] with initial balance 100 give a
combined series covering 2021-01-01, where the combined daily balance is 550
(both adjusted initials plus the chequing change) while the chequing and
saving series read 500 and 0 on that date: the balance identity fails at
combined-range dates carried by only one account's series. -/
theorem claim1_counterexample :
    ∃ h, mkBankingHistory 500 100 [⟨2021, 1, 1⟩] [480] [⟨2021, 1, 2⟩] [50] = some h
      ∧ (⟨2021, 1, 1⟩ : Date) ∈ h.bank_days
      ∧ seriesAt h.bank_days h.bank_daily_balances ⟨2021, 1, 1⟩
          ≠ seriesAt h.cheq_days h.cheq_daily_balances ⟨2021, 1, 1⟩
            + seriesAt h.save_days h.save_daily_balances ⟨2021, 1, 1⟩ := by
  obtain ⟨hf1, hf2, hf3, hf4, hf5, hf6, hf7, hf8, hf9, hf10, hf11, hf12⟩ :=
    bhs_fields 500 100 [⟨2021, 1, 1⟩] [480] [⟨2021, 1, 2⟩] [50]
  refine ⟨bankingHistorySpec 500 100 [⟨2021, 1, 1⟩] [480] [⟨2021, 1, 2⟩] [50],
    mkBankingHistory_eq 500 100 _ _ _ _ (by decide) (by decide) (by decide)
      (by decide), ?_, ?_⟩
  · rw [hf10]
    decide
  · rw [hf10, hf12, hf4, hf6, hf7, hf9]
    have e3 : accountFillDays (accountFillDays [(⟨2021, 1, 1⟩ : Date)]
        ++ accountFillDays [(⟨2021, 1, 2⟩ : Date)])
        = [⟨2021, 1, 1⟩, ⟨2021, 1, 2⟩] := by decide
    have e1 : accountFillDays [(⟨2021, 1, 1⟩ : Date)] = [⟨2021, 1, 1⟩] := by decide
    have e2 : accountFillDays [(⟨2021, 1, 2⟩ : Date)] = [⟨2021, 1, 2⟩] := by decide
    have s1 : sortedUniqueDates [(⟨2021, 1, 1⟩ : Date)] = [⟨2021, 1, 1⟩] := by decide
    have s2 : sortedUniqueDates [(⟨2021, 1, 2⟩ : Date)] = [⟨2021, 1, 2⟩] := by decide
    rw [e3, e1, e2, s1, s2]
    simp only [List.cons_append, List.nil_append, List.map_cons, List.map_nil,
      List.headI]
    have g1 : accountDailyChangeFun [(⟨2021, 1, 1⟩ : Date)] [480] ⟨2021, 1, 1⟩
        = 480 := by
      simp [accountDailyChangeFun, changeOn]
      exact round2_of_isCent ⟨48000, by norm_num⟩
    have g2 : accountDailyChangeFun [(⟨2021, 1, 2⟩ : Date)] [50] ⟨2021, 1, 2⟩
        = 50 := by
      simp [accountDailyChangeFun, changeOn]
      exact round2_of_isCent ⟨5000, by norm_num⟩
    rw [g1, g2]
    have g3 : accountDailyChangeFun [⟨2021, 1, 1⟩, ⟨2021, 1, 2⟩] [480, 50]
        ⟨2021, 1, 1⟩ = 480 := by
      simp [accountDailyChangeFun, changeOn]
      exact round2_of_isCent ⟨48000, by norm_num⟩
    have g4 : accountDailyChangeFun [⟨2021, 1, 1⟩, ⟨2021, 1, 2⟩] [480, 50]
        ⟨2021, 1, 2⟩ = 50 := by
      simp [accountDailyChangeFun, changeOn]
      exact round2_of_isCent ⟨5000, by norm_num⟩
    rw [g3, g4]
    have r550 : round2 550 = 550 := round2_of_isCent ⟨55000, by norm_num⟩
    have r600 : round2 600 = 600 := round2_of_isCent ⟨60000, by norm_num⟩
    have r500 : round2 500 = 500 := round2_of_isCent ⟨50000, by norm_num⟩
    have r100 : round2 100 = 100 := round2_of_isCent ⟨10000, by norm_num⟩
    have c1 : convert_changes_to_balances (500 - 480 + (100 - 50))
        [480, 50] = [550, 600] := by
      simp [convert_changes_to_balances, cumulativeSums]
      norm_num
      exact ⟨r550, r600⟩
    have c2 : convert_changes_to_balances (500 - 480) [480] = [500] := by
      simp [convert_changes_to_balances, cumulativeSums]
      norm_num
      exact r500
    have c3 : convert_changes_to_balances (100 - 50) [50] = [100] := by
      simp [convert_changes_to_balances, cumulativeSums]
      norm_num
      exact r100
    rw [c1, c2, c3]
    simp [seriesAt, changeOn]

/-- Claim C1 (amended): with whole-cent initial balances, the combined (bank) series
built by concatenating the two gap-filled account series, collapsing by date,
re-gap-filling, and accumulating from `initial_bank_balance` = adjusted
chequing initial + adjusted saving initial satisfies: its daily change at any
of its dates is the sum of the two accounts' daily changes on that date
(an account absent on a date contributing `0`), and its daily balance on any
date carried by both account series is the sum of the two accounts' daily
balances on that date. -/
theorem claim1_combined_invariant (ic isv : ℚ) (hic : IsCent ic)
    (his : IsCent isv) (cd : List Date) (cc : List ℚ) (sd : List Date)
    (sc : List ℚ) (hcne : cd ≠ []) (hsne : sd ≠ [])
    (hcv : ∀ d ∈ cd, d.Valid) (hsv : ∀ d ∈ sd, d.Valid) :
    ∃ h, mkBankingHistory ic isv cd cc sd sc = some h
      ∧ h.initial_bank_balance = h.initial_cheq_balance + h.initial_save_balance
      ∧ (∀ dt ∈ h.bank_days,
          seriesAt h.bank_days h.bank_daily_changes dt
            = seriesAt h.cheq_days h.cheq_daily_changes dt
              + seriesAt h.save_days h.save_daily_changes dt)
      ∧ (∀ dt, dt ∈ h.cheq_days → dt ∈ h.save_days →
          seriesAt h.bank_days h.bank_daily_balances dt
            = seriesAt h.cheq_days h.cheq_daily_balances dt
              + seriesAt h.save_days h.save_daily_balances dt) := by
  obtain ⟨hf1, hf2, hf3, hf4, hf5, hf6, hf7, hf8, hf9, hf10, hf11, hf12⟩ :=
    bhs_fields ic isv cd cc sd sc
  have hcatne : accountFillDays cd ++ accountFillDays sd ≠ [] := by
    intro h
    exact accountFillDays_ne_nil hcne hcv (List.append_eq_nil.mp h).1
  have hcatv : ∀ d ∈ accountFillDays cd ++ accountFillDays sd, d.Valid := by
    intro d hd
    rcases List.mem_append.mp hd with h | h
    · exact valid_mem_accountFillDays hcne hcv d h
    · exact valid_mem_accountFillDays hsne hsv d h
  have hvC := sud_headI_valid hcne hcv
  have hvS := sud_headI_valid hsne hsv
  have hvB := sud_headI_valid hcatne hcatv
  have hlBv := sud_getLastI_valid hcatne hcatv
  have hndC : (accountFillDays cd).Nodup := fillDays_nodup hvC _
  have hndS : (accountFillDays sd).Nodup := fillDays_nodup hvS _
  have hndB : (accountFillDays (accountFillDays cd ++ accountFillDays sd)).Nodup :=
    fillDays_nodup hvB _
  refine ⟨bankingHistorySpec ic isv cd cc sd sc,
    mkBankingHistory_eq ic isv cd cc sd sc hcne hsne hcv hsv, ?_, ?_, ?_⟩
  · rw [hf3, hf1, hf2]
  · intro dt hdt
    rw [hf10] at hdt
    rw [hf10, hf11, hf4, hf5, hf7, hf8]
    rw [seriesAt_map hndB, if_pos hdt, seriesAt_map hndC, seriesAt_map hndS]
    exact adcf_concat (accountFillDays cd) (accountFillDays sd)
      (accountDailyChangeFun cd cc) (accountDailyChangeFun sd sc) hndC hndS
      (fun d => isCent_adcf cd cc d) (fun d => isCent_adcf sd sc d) dt
  · intro dt hdtC hdtS
    rw [hf4] at hdtC
    rw [hf7] at hdtS
    rw [hf10, hf12, hf4, hf6, hf7, hf9]
    have hdtCf : dt ∈ fillDays (sortedUniqueDates cd).headI
        (sortedUniqueDates cd).getLastI := hdtC
    have hdtSf : dt ∈ fillDays (sortedUniqueDates sd).headI
        (sortedUniqueDates sd).getLastI := hdtS
    obtain ⟨hdtv, hCdt, hdtlC⟩ := (mem_fillDays hvC).mp hdtCf
    have hCmem : (sortedUniqueDates cd).headI
        ∈ accountFillDays cd ++ accountFillDays sd :=
      List.mem_append_left _ (sud_subset_accountFillDays hcne hcv _
        (headI_mem (sortedUniqueDates_ne_nil hcne)))
    have hSmem : (sortedUniqueDates sd).headI
        ∈ accountFillDays cd ++ accountFillDays sd :=
      List.mem_append_right _ (sud_subset_accountFillDays hsne hsv _
        (headI_mem (sortedUniqueDates_ne_nil hsne)))
    have hBC : toOrdinal (sortedUniqueDates
        (accountFillDays cd ++ accountFillDays sd)).headI
        ≤ toOrdinal (sortedUniqueDates cd).headI :=
      (dateLe_iff_toOrdinal hvB hvC).mp (sorted_headI_le
        (sortedUniqueDates_sorted _) (sortedUniqueDates_ne_nil hcatne) _
        (mem_sortedUniqueDates.mpr hCmem))
    have hBS : toOrdinal (sortedUniqueDates
        (accountFillDays cd ++ accountFillDays sd)).headI
        ≤ toOrdinal (sortedUniqueDates sd).headI :=
      (dateLe_iff_toOrdinal hvB hvS).mp (sorted_headI_le
        (sortedUniqueDates_sorted _) (sortedUniqueDates_ne_nil hcatne) _
        (mem_sortedUniqueDates.mpr hSmem))
    have hdtcat : dt ∈ accountFillDays cd ++ accountFillDays sd :=
      List.mem_append_left _ hdtC
    have hdtlB : toOrdinal dt ≤ toOrdinal (sortedUniqueDates
        (accountFillDays cd ++ accountFillDays sd)).getLastI :=
      (dateLe_iff_toOrdinal hdtv hlBv).mp (sorted_le_getLastI
        (sortedUniqueDates_sorted _) (sortedUniqueDates_ne_nil hcatne) _
        (mem_sortedUniqueDates.mpr hdtcat))
    have hdtB : dt ∈ fillDays (sortedUniqueDates
        (accountFillDays cd ++ accountFillDays sd)).headI
        (sortedUniqueDates (accountFillDays cd ++ accountFillDays sd)).getLastI :=
      (mem_fillDays hvB).mpr ⟨hdtv, by omega, hdtlB⟩
    have hicb : IsCent (ic - accountDailyChangeFun cd cc
        (sortedUniqueDates cd).headI) :=
      isCent_sub hic (isCent_adcf cd cc _)
    have hisb : IsCent (isv - accountDailyChangeFun sd sc
        (sortedUniqueDates sd).headI) :=
      isCent_sub his (isCent_adcf sd sc _)
    exact combined_balance_eq (sortedUniqueDates cd).headI
      (sortedUniqueDates cd).getLastI (sortedUniqueDates sd).headI
      (sortedUniqueDates sd).getLastI
      (sortedUniqueDates (accountFillDays cd ++ accountFillDays sd)).headI
      (sortedUniqueDates (accountFillDays cd ++ accountFillDays sd)).getLastI
      (accountDailyChangeFun cd cc) (accountDailyChangeFun sd sc)
      (ic - accountDailyChangeFun cd cc (sortedUniqueDates cd).headI)
      (isv - accountDailyChangeFun sd sc (sortedUniqueDates sd).headI)
      hvC hvS hvB (fun d => isCent_adcf cd cc d) (fun d => isCent_adcf sd sc d)
      hicb hisb hdtCf hdtSf hdtB hBC hBS

/-- Witness for the amended claim C1 with overlapping account ranges:
chequing spans 2021-01-01..03 and saving spans 2021-01-02..04, so the two
filled series share the dates 2021-01-02 and 2021-01-03 and the balance
conjunct is exercised. -/
theorem claim1_witness :
    ∃ h, mkBankingHistory 500 100 [⟨2021, 1, 1⟩, ⟨2021, 1, 3⟩] [480, -10]
        [⟨2021, 1, 2⟩, ⟨2021, 1, 4⟩] [50, 5] = some h
      ∧ h.initial_bank_balance = h.initial_cheq_balance + h.initial_save_balance
      ∧ (∀ dt ∈ h.bank_days,
          seriesAt h.bank_days h.bank_daily_changes dt
            = seriesAt h.cheq_days h.cheq_daily_changes dt
              + seriesAt h.save_days h.save_daily_changes dt)
      ∧ (∀ dt, dt ∈ h.cheq_days → dt ∈ h.save_days →
          seriesAt h.bank_days h.bank_daily_balances dt
            = seriesAt h.cheq_days h.cheq_daily_balances dt
              + seriesAt h.save_days h.save_daily_balances dt) :=
  claim1_combined_invariant 500 100 ⟨50000, by norm_num⟩ ⟨10000, by norm_num⟩
    [⟨2021, 1, 1⟩, ⟨2021, 1, 3⟩] [480, -10] [⟨2021, 1, 2⟩, ⟨2021, 1, 4⟩] [50, 5]
    (by decide) (by decide) (by decide) (by decide)
